import Mathlib

/-!
Verification development for the contextplus hybrid semantic search subsystem.

This file gives a shallow embedding, in Lean 4, of the embedding provider
adapter, the hybrid search index, the call-site ranker and the spectral
clustering navigator of the repository, and proves properties of those
embeddings.

Modelling conventions:
* JavaScript strings are modelled as `List Char` (`Str`); string slicing,
  concatenation and splitting become the corresponding list operations.
* JavaScript numbers are modelled as exact rationals `ℚ`.  `Math.sqrt` is not
  rational, so every definition that calls it is parameterised by an abstract
  square-root function `sqrtF : ℚ → ℚ`; no proved property depends on its
  values.
* The Ollama embedding endpoint is modelled by a deterministic `Provider`:
  `embedOne` gives the vector returned for an input when a call succeeds, and
  `callFails` classifies each call as succeeding (`none`), failing with a
  context-length error (`some true`) or failing with any other error
  (`some false`).  Thrown exceptions are modelled with `Except`.
* The eigendecomposition performed by `ml-matrix` is numerical; it is modelled
  by an abstract `EigenOracle` returning the eigenvalue list and an
  eigenvector accessor, and the Ollama chat labeller of the navigator is
  modelled by an abstract pure labelling function.
-/

deriving instance DecidableEq for Except

unseal Rat.add Rat.mul Rat.sub Rat.inv Rat.ofScientific

namespace ContextPlus

/-- JavaScript strings, modelled as lists of characters. -/
abbrev Str := List Char

/-- Embedding vectors (JavaScript `number[]`), modelled as lists of rationals. -/
abbrev Vec := List ℚ

/-- The errors the embedding adapter can raise: a context-length error, any
other provider error, and the dedicated `Unable to embed oversized input after
adaptive retries` error thrown when the retry loop runs out. -/
inductive EmbedError where
  | ctx
  | other
  | exhausted
deriving DecidableEq, Repr

/-- Deterministic model of the Ollama embedding endpoint.  `embedOne` is the
per-input vector produced by a successful call (the provider contract makes a
successful batched call positionally aligned and per-input deterministic);
`callFails` tells, for each batch, whether the call succeeds (`none`), throws a
context-length error (`some true`) or throws some other error (`some false`). -/
structure Provider where
  embedOne : Str → Vec
  callFails : List Str → Option Bool

/-! ### Embedding provider adapter (`src/core/embeddings.ts`) -/

/-- `MIN_EMBED_BATCH_SIZE` from `embeddings.ts`. -/
def MIN_EMBED_BATCH_SIZE : ℤ := 5

/-- `MAX_EMBED_BATCH_SIZE` from `embeddings.ts`. -/
def MAX_EMBED_BATCH_SIZE : ℤ := 10

/-- `DEFAULT_EMBED_BATCH_SIZE` from `embeddings.ts`. -/
def DEFAULT_EMBED_BATCH_SIZE : ℤ := 8

/-- `MIN_EMBED_INPUT_CHARS` from `embeddings.ts`. -/
def MIN_EMBED_INPUT_CHARS : ℕ := 256

/-- `MAX_SINGLE_INPUT_RETRIES` from `embeddings.ts`. -/
def MAX_SINGLE_INPUT_RETRIES : ℕ := 8

/-- `getEmbeddingBatchSize`: the requested batch size (the parsed
`CONTEXTPLUS_EMBED_BATCH_SIZE` environment variable, `none` when absent or
unparsable, in which case the default `8` is used) clamped into `[5, 10]`. -/
def getEmbeddingBatchSize (requested : Option ℤ) : ℕ :=
  (min MAX_EMBED_BATCH_SIZE (max MIN_EMBED_BATCH_SIZE (requested.getD DEFAULT_EMBED_BATCH_SIZE))).toNat

/-- `shrinkEmbeddingInput`: shrink an oversized input to
`max 256 ⌊length * 0.75⌋` characters; inputs of at most 256 characters are
returned unchanged.  (`0.75 * length` is exact in floating point, so
`Math.floor(input.length * 0.75)` is `length * 3 / 4` in `ℕ`.) -/
def shrinkEmbeddingInput (input : Str) : Str :=
  if input.length ≤ MIN_EMBED_INPUT_CHARS then input
  else
    let nextLength := max MIN_EMBED_INPUT_CHARS (input.length * 3 / 4)
    if input.length ≤ nextLength then input.take (input.length - 1)
    else input.take nextLength

/-- Iterated shrinking: the candidate used by the `k`-th attempt of
`embedSingleAdaptive` on original input `t` is `shrinkIter k t`. -/
def shrinkIter : ℕ → Str → Str
  | 0, t => t
  | k + 1, t => shrinkIter k (shrinkEmbeddingInput t)

/-- Loop body of `embedSingleAdaptive`; `fuel` is the number of attempts still
allowed (the source allows `MAX_SINGLE_INPUT_RETRIES + 1` attempts).  A
successful call returns the provider's vector; a non-context-length error is
rethrown at once; a context-length error shrinks the candidate and retries,
rethrowing when shrinking makes no progress. -/
def embedSingleAdaptiveAux (p : Provider) : ℕ → Str → Except EmbedError Vec
  | 0, _ => .error .exhausted
  | fuel + 1, candidate =>
    match p.callFails [candidate] with
    | none => .ok (p.embedOne candidate)
    | some false => .error .other
    | some true =>
      let nextCandidate := shrinkEmbeddingInput candidate
      if nextCandidate.length = candidate.length then .error .ctx
      else embedSingleAdaptiveAux p fuel nextCandidate

/-- `embedSingleAdaptive` from `embeddings.ts`. -/
def embedSingleAdaptive (p : Provider) (input : Str) : Except EmbedError Vec :=
  embedSingleAdaptiveAux p (MAX_SINGLE_INPUT_RETRIES + 1) input

/-- Number of provider calls made by `embedSingleAdaptiveAux` (observable
retry count; mirrors the loop of `embedSingleAdaptive` exactly). -/
def embedSingleAdaptiveCallsAux (p : Provider) : ℕ → Str → ℕ
  | 0, _ => 0
  | fuel + 1, candidate =>
    match p.callFails [candidate] with
    | none => 1
    | some false => 1
    | some true =>
      let nextCandidate := shrinkEmbeddingInput candidate
      if nextCandidate.length = candidate.length then 1
      else 1 + embedSingleAdaptiveCallsAux p fuel nextCandidate

/-- Number of provider calls made by `embedSingleAdaptive`. -/
def embedSingleAdaptiveCalls (p : Provider) (input : Str) : ℕ :=
  embedSingleAdaptiveCallsAux p (MAX_SINGLE_INPUT_RETRIES + 1) input

/-- Recursion kernel of `embedBatchAdaptive` from `embeddings.ts`, with the
recursion depth made explicit as fuel so the definition is structural (the
wrapper always supplies more fuel than the batch length, so the fuel-0 branch
is dead): try the whole batch; on a context-length error bisect
(`middle = Math.ceil(length / 2)`) and recurse on the halves, concatenating in
order; a singleton batch falls back to `embedSingleAdaptive`.
Non-context-length errors propagate.  (A successful provider call returns one
vector per input, so the response-size-mismatch check of the source can never
fire in the model; the empty-batch case is unreachable from
`fetchEmbedding`.) -/
def embedBatchAdaptiveGo (p : Provider) : ℕ → List Str → Except EmbedError (List Vec)
  | 0, _ => .error .other
  | fuel + 1, batch =>
    match p.callFails batch with
    | none => .ok (batch.map p.embedOne)
    | some false => .error .other
    | some true =>
      if batch.length = 1 then
        (embedSingleAdaptive p (batch.headD [])).map (fun v => [v])
      else if batch.length ≤ 1 then
        .error .ctx
      else
        (embedBatchAdaptiveGo p fuel (batch.take ((batch.length + 1) / 2))).bind fun left =>
          (embedBatchAdaptiveGo p fuel (batch.drop ((batch.length + 1) / 2))).bind fun right =>
            .ok (left ++ right)

/-- `embedBatchAdaptive` from `embeddings.ts` (each bisection at least halves
a batch of two or more, so `batch.length + 1` rounds of fuel always
suffice). -/
def embedBatchAdaptive (p : Provider) (batch : List Str) : Except EmbedError (List Vec) :=
  embedBatchAdaptiveGo p (batch.length + 1) batch

/-- The chunking loop of `fetchEmbedding`: slice off `batchSize` inputs at a
time, embed each slice adaptively and concatenate in order.  The fuel (number
of remaining chunks, always at least the input length at the call site) makes
the recursion structural; the fuel-0 branch is dead. -/
def fetchEmbeddingGo (p : Provider) (requested : Option ℤ) :
    ℕ → List Str → Except EmbedError (List Vec)
  | _, [] => .ok []
  | 0, _ :: _ => .error .other
  | fuel + 1, t :: rest =>
    (embedBatchAdaptive p ((t :: rest).take (getEmbeddingBatchSize requested))).bind fun vecs =>
      (fetchEmbeddingGo p requested fuel
          ((t :: rest).drop (getEmbeddingBatchSize requested))).bind fun more =>
        .ok (vecs ++ more)

/-- `fetchEmbedding` from `embeddings.ts` (the `string | string[]` overload is
modelled by always passing the list form; an empty input list returns `[]`,
which the chunk loop already yields). -/
def fetchEmbedding (p : Provider) (requested : Option ℤ) (input : List Str) :
    Except EmbedError (List Vec) :=
  fetchEmbeddingGo p requested input.length input

/-! ### Content hash and disk embedding cache (`src/core/embeddings.ts`) -/

/-- Wrap an integer to the signed 32-bit range (the JavaScript `| 0`). -/
def toInt32 (x : ℤ) : ℤ :=
  (x + 2 ^ 31) % 2 ^ 32 - 2 ^ 31

/-- `hashContent`: the rolling `h = ((h << 5) - h + charCode) | 0` hash.
`h << 5` also wraps at 32 bits.  The source renders the result in base 36,
which is injective on 32-bit integers, so the model keeps the integer. -/
def hashContent (text : Str) : ℤ :=
  text.foldl (fun h c => toInt32 (toInt32 (h * 32) - h + c.toNat)) 0

/-- An embedding-cache entry `{hash, vector}`. -/
structure CacheEntry where
  hash : ℤ
  vector : Vec
deriving DecidableEq, Repr

/-- The JSON embedding cache: a keyed map, modelled as an association list
with unique keys maintained by `cacheInsert`. -/
abbrev EmbeddingCache := List (Str × CacheEntry)

/-- Object property read `cache[key]`. -/
def cacheLookup (cache : EmbeddingCache) (key : Str) : Option CacheEntry :=
  cache.lookup key

/-- Object property write `cache[key] = entry` (replace or append). -/
def cacheInsert (cache : EmbeddingCache) (key : Str) (entry : CacheEntry) : EmbeddingCache :=
  match cache with
  | [] => [(key, entry)]
  | (k, e) :: rest => if k = key then (key, entry) :: rest else (k, e) :: cacheInsert rest key entry

/-! ### Tokenisation and scoring helpers (`src/core/embeddings.ts`) -/

/-- ASCII lower-case letter test (`[a-z]`). -/
def isLowerAlpha (c : Char) : Bool :=
  'a' ≤ c && c ≤ 'z'

/-- ASCII upper-case letter test (`[A-Z]`). -/
def isUpperAlpha (c : Char) : Bool :=
  'A' ≤ c && c ≤ 'Z'

/-- ASCII digit test (`[0-9]`). -/
def isDigitChar (c : Char) : Bool :=
  '0' ≤ c && c ≤ '9'

/-- The global replace `.replace(/([a-z])([A-Z])/g, "$1 $2")`: insert a space
at every lower-to-upper case transition, the match consuming both letters. -/
def camelPassOne : Str → Str
  | [] => []
  | [c] => [c]
  | a :: b :: rest =>
    if isLowerAlpha a && isUpperAlpha b then a :: ' ' :: b :: camelPassOne rest
    else a :: camelPassOne (b :: rest)

/-- The global replace `.replace(/([A-Z])([A-Z][a-z])/g, "$1 $2")`: split
upper-case runs before a trailing capitalised word, the match consuming all
three letters. -/
def camelPassTwo : Str → Str
  | [] => []
  | [c] => [c]
  | [b, c] => [b, c]
  | a :: b :: c :: rest =>
    if isUpperAlpha a && isUpperAlpha b && isLowerAlpha c then a :: ' ' :: b :: c :: camelPassTwo rest
    else a :: camelPassTwo (b :: c :: rest)

/-- `String.prototype.split` on runs of separator characters (a `/[...]+/`
regex): fields between maximal separator runs, keeping the (possibly empty)
leading and trailing fields, exactly as in JavaScript.  The fuel (always at
least the remaining length at the call site) makes the recursion structural;
the fuel-0 branch is dead. -/
def splitRunsGo (sep : Char → Bool) : ℕ → Str → Str → List Str
  | _, [], current => [current.reverse]
  | 0, _ :: _, current => [current.reverse]
  | fuel + 1, c :: rest, current =>
    if sep c then current.reverse :: splitRunsGo sep fuel (rest.dropWhile sep) []
    else splitRunsGo sep fuel rest (c :: current)

/-- `String.prototype.split` on runs of separator characters. -/
def splitRuns (sep : Char → Bool) (s : Str) : Str → List Str :=
  splitRunsGo sep s.length s

/-- Separator class of `splitCamelCase`: the regex `[\s_-]+`. -/
def isCamelSep (c : Char) : Bool :=
  c = ' ' || c = '\t' || c = '\n' || c = '\r' || c = '_' || c = '-'

/-- `splitCamelCase` from `embeddings.ts`: case-transition spacing, lowering,
splitting on whitespace/underscore/hyphen runs, dropping tokens of length
at most 1. -/
def splitCamelCase (text : Str) : List Str :=
  (splitRuns isCamelSep ((camelPassTwo (camelPassOne text)).map Char.toLower) []).filter
    (fun t => 1 < t.length)

/-- JavaScript `Set` construction: deduplicate keeping first occurrences. -/
def dedupKeepFirst (l : List Str) : List Str :=
  l.foldl (fun acc t => if t ∈ acc then acc else acc ++ [t]) []

/-- Whitespace test used by `String.prototype.trim` (ASCII part). -/
def isTrimWs (c : Char) : Bool :=
  c = ' ' || c = '\t' || c = '\n' || c = '\r'

/-- `String.prototype.trim`. -/
def trimStr (s : Str) : Str :=
  ((s.dropWhile isTrimWs).reverse.dropWhile isTrimWs).reverse

/-- `String.prototype.includes`: substring containment. -/
def containsSub (hay needle : Str) : Bool :=
  hay.tails.any (fun t => needle.isPrefixOf t)

/-- `" ".join` / `Array.prototype.join(" ")`. -/
def joinSpace (l : List Str) : Str :=
  List.intercalate [' '] l

/-- `cosine` from `embeddings.ts`, with `Math.sqrt` abstracted as `sqrtF`:
`dot / (sqrt normA * sqrt normB)`, and `0` when the denominator is zero. -/
def cosine (sqrtF : ℚ → ℚ) (a b : Vec) : ℚ :=
  let dot := ((List.range a.length).map (fun i => a.getD i 0 * b.getD i 0)).sum
  let normA := ((List.range a.length).map (fun i => a.getD i 0 * a.getD i 0)).sum
  let normB := ((List.range a.length).map (fun i => b.getD i 0 * b.getD i 0)).sum
  let denom := sqrtF normA * sqrtF normB
  if denom = 0 then 0 else dot / denom

/-- `clamp01` from `embeddings.ts`. -/
def clamp01 (value : ℚ) : ℚ :=
  if value ≤ 0 then 0
  else if 1 ≤ value then 1
  else value

/-- `normalizeThreshold`: `undefined`/non-finite (`none`) falls back; a value
above 1 is read as a percentage and divided by 100; the result is clamped to
`[0, 1]`. -/
def normalizeThreshold (value : Option ℚ) (fallback : ℚ) : ℚ :=
  match value with
  | none => fallback
  | some v => if 1 < v then clamp01 (v / 100) else clamp01 v

/-- `normalizeWeight`: `undefined`, non-finite or negative falls back. -/
def normalizeWeight (value : Option ℚ) (fallback : ℚ) : ℚ :=
  match value with
  | none => fallback
  | some v => if v < 0 then fallback else v

/-- `normalizeTopK`: `Math.max(1, Math.floor(value))`, with a fallback for
`undefined`/non-finite. -/
def normalizeTopK (value : Option ℚ) (fallback : ℕ) : ℕ :=
  match value with
  | none => fallback
  | some v => (max 1 ⌊v⌋).toNat

/-! ### Search documents and query options (`src/core/embeddings.ts`) -/

/-- `SymbolSearchEntry` from `embeddings.ts`. -/
structure SymbolSearchEntry where
  name : Str
  kind : Option Str := none
  line : ℕ := 0
  endLine : Option ℕ := none
  signature : Option Str := none
deriving DecidableEq, Inhabited

/-- `SearchDocument` from `embeddings.ts`. -/
structure SearchDocument where
  path : Str := []
  header : Str := []
  symbols : List Str := []
  symbolEntries : Option (List SymbolSearchEntry) := none
  content : Str := []
deriving DecidableEq, Inhabited

/-- `SearchResult` from `embeddings.ts` (scores already rounded to one decimal
of a percentage). -/
structure SearchResult where
  path : Str
  score : ℚ
  semanticScore : ℚ
  keywordScore : ℚ
  header : Str
  matchedSymbols : List Str
  matchedSymbolLocations : List Str
deriving DecidableEq

/-- `SearchQueryOptions` from `embeddings.ts` (every knob optional). -/
structure SearchQueryOptions where
  topK : Option ℚ := none
  semanticWeight : Option ℚ := none
  keywordWeight : Option ℚ := none
  minSemanticScore : Option ℚ := none
  minKeywordScore : Option ℚ := none
  minCombinedScore : Option ℚ := none
  requireKeywordMatch : Option Bool := none
  requireSemanticMatch : Option Bool := none
deriving DecidableEq

/-- `ResolvedSearchQueryOptions` from `embeddings.ts`. -/
structure ResolvedSearchQueryOptions where
  topK : ℕ
  semanticWeight : ℚ
  keywordWeight : ℚ
  minSemanticScore : ℚ
  minKeywordScore : ℚ
  minCombinedScore : ℚ
  requireKeywordMatch : Bool
  requireSemanticMatch : Bool
deriving DecidableEq

/-- `resolveSearchOptions` from `embeddings.ts` (the bare-number overload
wraps the number into `{topK}` before reaching these defaults, so the model
takes the object form). -/
def resolveSearchOptions (raw : SearchQueryOptions) : ResolvedSearchQueryOptions where
  topK := normalizeTopK raw.topK 5
  semanticWeight := normalizeWeight raw.semanticWeight (72 / 100)
  keywordWeight := normalizeWeight raw.keywordWeight (28 / 100)
  minSemanticScore := normalizeThreshold raw.minSemanticScore 0
  minKeywordScore := normalizeThreshold raw.minKeywordScore 0
  minCombinedScore := normalizeThreshold raw.minCombinedScore (1 / 10)
  requireKeywordMatch := raw.requireKeywordMatch.getD false
  requireSemanticMatch := raw.requireSemanticMatch.getD false

/-- `getTermCoverage`: fraction of query terms present among document terms. -/
def getTermCoverage (queryTerms docTerms : List Str) : ℚ :=
  if queryTerms.length = 0 then 0
  else ((queryTerms.filter (fun t => t ∈ docTerms)).length : ℚ) / (queryTerms.length : ℚ)

/-- `getMatchedSymbols`: symbols one of whose camel-case terms is a query
term. -/
def getMatchedSymbols (symbols : List Str) (queryTerms : List Str) : List Str :=
  if queryTerms.length = 0 then []
  else symbols.filter (fun s => (splitCamelCase s).any (fun t => t ∈ queryTerms))

/-- `getMatchedSymbolEntries` (same filter over `SymbolSearchEntry`). -/
def getMatchedSymbolEntries (symbols : List SymbolSearchEntry) (queryTerms : List Str) :
    List SymbolSearchEntry :=
  if queryTerms.length = 0 then []
  else symbols.filter (fun s => (splitCamelCase s.name).any (fun t => t ∈ queryTerms))

/-- `computeKeywordScore`: 65% general term coverage, 20% matched-symbol
coverage, 15% literal-phrase boost, clamped to `[0, 1]`. -/
def computeKeywordScore (query : Str) (queryTerms : List Str) (doc : SearchDocument)
    (matchedSymbols : List Str) : ℚ :=
  if queryTerms.length = 0 then 0
  else
    let docText := doc.path ++ [' '] ++ doc.header ++ [' '] ++ joinSpace doc.symbols ++ [' '] ++ doc.content
    let docTerms := dedupKeepFirst (splitCamelCase docText)
    let queryLower := (trimStr query).map Char.toLower
    let phraseBoost : ℚ :=
      if 0 < queryLower.length && containsSub (docText.map Char.toLower) queryLower then 15 / 100 else 0
    let symbolTerms := dedupKeepFirst (splitCamelCase (joinSpace matchedSymbols))
    let termCoverage := getTermCoverage queryTerms docTerms
    let symbolCoverage := getTermCoverage queryTerms symbolTerms
    clamp01 (termCoverage * (65 / 100) + symbolCoverage * (20 / 100) + phraseBoost)

/-- `computeCombinedScore`: weighted average of the semantic component
(floored at 0) and the keyword score, falling back to the semantic component
when both weights vanish. -/
def computeCombinedScore (semanticScore keywordScore : ℚ)
    (options : ResolvedSearchQueryOptions) : ℚ :=
  let semanticComponent := max semanticScore 0
  let totalWeight := options.semanticWeight + options.keywordWeight
  if totalWeight ≤ 0 then semanticComponent
  else
    clamp01 ((options.semanticWeight * semanticComponent + options.keywordWeight * keywordScore) /
      totalWeight)

/-- Decimal rendering of a natural number, as a character list. -/
def natStr (n : ℕ) : Str :=
  (Nat.repr n).toList

/-- `formatLineRange` from `embeddings.ts` (a falsy `endLine`, i.e. absent, or
one not exceeding `line`, yields the single-line form). -/
def formatLineRange (line : ℕ) (endLine : Option ℕ) : Str :=
  match endLine with
  | some e => if line < e then ['L'] ++ natStr line ++ ['-', 'L'] ++ natStr e else ['L'] ++ natStr line
  | none => ['L'] ++ natStr line

/-! ### `SearchIndex.search` (`src/core/embeddings.ts`) -/

/-- One entry of the `scores` array built by `SearchIndex.search` before
sorting, truncation and rounding. -/
structure ScoredEntry where
  idx : ℕ
  score : ℚ
  semanticScore : ℚ
  keywordScore : ℚ
  matchedSymbols : List Str
  matchedSymbolLocations : List Str
deriving DecidableEq

/-- The comparator `(a, b) => b.score - a.score || b.keywordScore -
a.keywordScore || b.semanticScore - a.semanticScore` as the total preorder it
induces (`a` sorts no later than `b`): descending combined score, ties broken
by descending keyword score, then by descending semantic score.  JavaScript's
`Array.prototype.sort` is stable, and a stable sort by a total preorder has a
unique result, so sorting is modelled by a stable sort by this relation. -/
def resultOrder (a b : ScoredEntry) : Prop :=
  b.score < a.score ∨ (b.score = a.score ∧
    (b.keywordScore < a.keywordScore ∨ (b.keywordScore = a.keywordScore ∧
      b.semanticScore ≤ a.semanticScore)))

instance : DecidableRel resultOrder := fun a b =>
  inferInstanceAs (Decidable (b.score < a.score ∨ (b.score = a.score ∧
    (b.keywordScore < a.keywordScore ∨ (b.keywordScore = a.keywordScore ∧
      b.semanticScore ≤ a.semanticScore)))))

instance : IsTotal ScoredEntry resultOrder where
  total a b := by
    unfold resultOrder
    rcases lt_trichotomy a.score b.score with h | h | h
    · exact .inr (.inl h)
    · rcases lt_trichotomy a.keywordScore b.keywordScore with h2 | h2 | h2
      · exact .inr (.inr ⟨h, .inl h2⟩)
      · rcases le_total b.semanticScore a.semanticScore with h3 | h3
        · exact .inl (.inr ⟨h.symm, .inr ⟨h2.symm, h3⟩⟩)
        · exact .inr (.inr ⟨h, .inr ⟨h2, h3⟩⟩)
      · exact .inl (.inr ⟨h.symm, .inl h2⟩)
    · exact .inl (.inl h)

instance : IsTrans ScoredEntry resultOrder where
  trans a b c hab hbc := by
    unfold resultOrder at *
    rcases hab with h1 | ⟨h1, h1'⟩
    · rcases hbc with h2 | ⟨h2, _⟩
      · exact .inl (h2.trans h1)
      · exact .inl (lt_of_eq_of_lt h2 h1)
    · rcases hbc with h2 | ⟨h2, h2'⟩
      · exact .inl (lt_of_lt_of_eq h2 h1)
      · refine .inr ⟨h2.trans h1, ?_⟩
        rcases h1' with h3 | ⟨h3, h3'⟩
        · rcases h2' with h4 | ⟨h4, _⟩
          · exact .inl (h4.trans h3)
          · exact .inl (lt_of_eq_of_lt h4 h3)
        · rcases h2' with h4 | ⟨h4, h4'⟩
          · exact .inl (lt_of_lt_of_eq h4 h3)
          · exact .inr ⟨h4.trans h3, h4'.trans h3'⟩

/-- The scoring-and-filtering loop of `SearchIndex.search`: for each index
with a defined vector, compute the semantic, keyword and combined scores and
apply the five `continue` filters.  `queryVec` is the vector the source
obtains by embedding the query. -/
def searchCollect (sqrtF : ℚ → ℚ) (documents : List SearchDocument)
    (vectors : List (Option Vec)) (query : Str) (queryVec : Vec)
    (options : ResolvedSearchQueryOptions) : List ScoredEntry :=
  let queryTerms := dedupKeepFirst (splitCamelCase query)
  (List.range vectors.length).filterMap fun i =>
    match vectors.getD i none with
    | none => none
    | some vec =>
      let doc := documents.getD i default
      let semanticScore := cosine sqrtF queryVec vec
      let matchedEntries :=
        match doc.symbolEntries with
        | some entries => getMatchedSymbolEntries entries queryTerms
        | none => []
      let matchedSymbols :=
        if 0 < matchedEntries.length then matchedEntries.map (fun e => e.name)
        else getMatchedSymbols doc.symbols queryTerms
      let matchedSymbolLocations :=
        matchedEntries.map (fun e => e.name ++ ['@'] ++ formatLineRange e.line e.endLine)
      let keywordScore := computeKeywordScore query queryTerms doc matchedSymbols
      let score := computeCombinedScore semanticScore keywordScore options
      if options.requireSemanticMatch ∧ semanticScore ≤ 0 then none
      else if options.requireKeywordMatch ∧ keywordScore ≤ 0 then none
      else if max semanticScore 0 < options.minSemanticScore then none
      else if keywordScore < options.minKeywordScore then none
      else if score < options.minCombinedScore then none
      else some ⟨i, score, semanticScore, keywordScore, matchedSymbols, matchedSymbolLocations⟩

/-- The sorted and truncated score list of `SearchIndex.search`
(`.sort(comparator).slice(0, topK)`), for already-resolved options. -/
def searchSortedResolved (sqrtF : ℚ → ℚ) (documents : List SearchDocument)
    (vectors : List (Option Vec)) (query : Str) (queryVec : Vec)
    (options : ResolvedSearchQueryOptions) : List ScoredEntry :=
  ((searchCollect sqrtF documents vectors query queryVec options).insertionSort
    resultOrder).take options.topK

/-- `Math.round(x * 1000) / 10` (`Math.round` is `⌊x + 1/2⌋` for the
non-negative scores involved). -/
def roundPct (x : ℚ) : ℚ :=
  ((⌊x * 1000 + 1 / 2⌋ : ℤ) : ℚ) / 10

/-- The final mapping of a score entry to a `SearchResult`. -/
def toSearchResult (documents : List SearchDocument) (e : ScoredEntry) : SearchResult where
  path := (documents.getD e.idx default).path
  score := roundPct e.score
  semanticScore := roundPct (max e.semanticScore 0)
  keywordScore := roundPct e.keywordScore
  header := (documents.getD e.idx default).header
  matchedSymbols := e.matchedSymbols
  matchedSymbolLocations := e.matchedSymbolLocations

/-- `SearchIndex.search` with already-resolved options. -/
def searchResolved (sqrtF : ℚ → ℚ) (documents : List SearchDocument)
    (vectors : List (Option Vec)) (query : Str) (queryVec : Vec)
    (options : ResolvedSearchQueryOptions) : List SearchResult :=
  (searchSortedResolved sqrtF documents vectors query queryVec options).map
    (toSearchResult documents)

/-- The sorted, truncated score list of `SearchIndex.search` for raw query
options. -/
def searchSorted (sqrtF : ℚ → ℚ) (documents : List SearchDocument)
    (vectors : List (Option Vec)) (query : Str) (queryVec : Vec)
    (optionsRaw : SearchQueryOptions) : List ScoredEntry :=
  searchSortedResolved sqrtF documents vectors query queryVec (resolveSearchOptions optionsRaw)

/-- `SearchIndex.search` from `embeddings.ts`: resolve the options, score and
filter every indexed document, sort with the three-level comparator, truncate
to `topK` and round the reported scores.  `documents`/`vectors` are the
parallel arrays of the index; `queryVec` is the embedding of the query. -/
def SearchIndex.search (sqrtF : ℚ → ℚ) (documents : List SearchDocument)
    (vectors : List (Option Vec)) (query : Str) (queryVec : Vec)
    (optionsRaw : SearchQueryOptions) : List SearchResult :=
  searchResolved sqrtF documents vectors query queryVec (resolveSearchOptions optionsRaw)

/-! ### `SearchIndex.index` (`src/core/embeddings.ts`) -/

/-- The embedding input of one document:
`` `${doc.header} ${doc.symbols.join(" ")} ${doc.content}` ``. -/
def docEmbedText (doc : SearchDocument) : Str :=
  doc.header ++ [' '] ++ joinSpace doc.symbols ++ [' '] ++ doc.content

/-- First pass of `SearchIndex.index`, written as a recursion over the
documents with running index `i`: cache hits (same key, same hash) fill
`vectors[i]` immediately, the rest are queued as `{idx, text, hash}` in
document order; unfilled slots are `none` (the `new Array` holes). -/
def scanDocs (cache : EmbeddingCache) : List SearchDocument → ℕ →
    List (Option Vec) × List (ℕ × Str × ℤ)
  | [], _ => ([], [])
  | doc :: rest, i =>
    let tail := scanDocs cache rest (i + 1)
    let text := docEmbedText doc
    let hash := hashContent text
    match cacheLookup cache doc.path with
    | some entry =>
      if entry.hash = hash then (some entry.vector :: tail.1, tail.2)
      else (none :: tail.1, (i, text, hash) :: tail.2)
    | none => (none :: tail.1, (i, text, hash) :: tail.2)

/-- One write-back of the batched embedding loop of `SearchIndex.index`:
`this.vectors[batch[j].idx] = embeddings[j]` and
`cache[docs[batch[j].idx].path] = {hash, vector}`. -/
def indexFoldStep (docs : List SearchDocument)
    (vc : List (Option Vec) × EmbeddingCache) (be : (ℕ × Str × ℤ) × Vec) :
    List (Option Vec) × EmbeddingCache :=
  (vc.1.set be.1.1 (some be.2),
   cacheInsert vc.2 (docs.getD be.1.1 default).path ⟨be.1.2.2, be.2⟩)

/-- The batched embedding loop of `SearchIndex.index`: slice the uncached
queue by the batch size, embed each slice, write the vectors into their slots
and the `{hash, vector}` entries into the cache under the document paths. -/
def indexBatchesGo (p : Provider) (requested : Option ℤ) (docs : List SearchDocument) :
    ℕ → List (ℕ × Str × ℤ) → List (Option Vec) → EmbeddingCache →
    Except EmbedError (List (Option Vec) × EmbeddingCache)
  | _, [], vectors, cache => .ok (vectors, cache)
  | 0, _ :: _, _, _ => .error .other
  | fuel + 1, u :: urest, vectors, cache =>
    let bs := getEmbeddingBatchSize requested
    let batch := (u :: urest).take bs
    (fetchEmbedding p requested (batch.map (fun b => b.2.1))).bind fun embeddings =>
      let updated := (batch.zip embeddings).foldl (indexFoldStep docs) (vectors, cache)
      indexBatchesGo p requested docs fuel ((u :: urest).drop bs) updated.1 updated.2

/-- Wrapper supplying sufficient fuel (the uncached-list length; the fuel-0
branch above is dead). -/
def indexBatches (p : Provider) (requested : Option ℤ) (docs : List SearchDocument)
    (uncached : List (ℕ × Str × ℤ)) (vectors : List (Option Vec)) (cache : EmbeddingCache) :
    Except EmbedError (List (Option Vec) × EmbeddingCache) :=
  indexBatchesGo p requested docs uncached.length uncached vectors cache

/-- `SearchIndex.index` from `embeddings.ts`: load the cache (taken here as
the parameter `cache`), partition documents into cache hits and misses, embed
the misses in batches and return the final parallel `vectors` array together
with the cache that the source then persists.  A thrown embedding error
propagates out of the whole method. -/
def SearchIndex.index (p : Provider) (requested : Option ℤ) (docs : List SearchDocument)
    (cache : EmbeddingCache) : Except EmbedError (List (Option Vec) × EmbeddingCache) :=
  let scanned := scanDocs cache docs 0
  indexBatches p requested docs scanned.2 scanned.1 cache

/-! ### Call-site ranking (`src/tools/semantic-identifiers.ts`) -/

/-- A candidate occurrence line collected by the scanning phase of
`rankCallSites`, with its cheap keyword score. -/
structure CallCandidate where
  file : Str
  line : ℕ
  context : Str
  keywordScore : ℚ
deriving DecidableEq, Inhabited

/-- A ranked call site. -/
structure CallSite where
  file : Str
  line : ℕ
  context : Str
  semanticScore : ℚ
  keywordScore : ℚ
  score : ℚ
deriving DecidableEq

/-- The comparator `(a, b) => b.keywordScore - a.keywordScore` on candidates
(the descending-keyword-score preorder; sorting is the stable sort by it). -/
def candKwOrder (a b : CallCandidate) : Prop :=
  b.keywordScore ≤ a.keywordScore

instance : DecidableRel candKwOrder := fun a b =>
  inferInstanceAs (Decidable (b.keywordScore ≤ a.keywordScore))

instance : IsTotal CallCandidate candKwOrder where
  total a b := le_total b.keywordScore a.keywordScore

instance : IsTrans CallCandidate candKwOrder where
  trans _ _ _ hab hbc := le_trans hbc hab

/-- The comparator `(a, b) => b.score - a.score` on ranked call sites. -/
def siteScoreOrder (a b : CallSite) : Prop :=
  b.score ≤ a.score

instance : DecidableRel siteScoreOrder := fun a b =>
  inferInstanceAs (Decidable (b.score ≤ a.score))

instance : IsTotal CallSite siteScoreOrder where
  total a b := le_total b.score a.score

instance : IsTrans CallSite siteScoreOrder where
  trans _ _ _ hab hbc := le_trans hbc hab

/-- The cache key `` `callsite:${file}:${line}` ``. -/
def callsiteKey (file : Str) (line : ℕ) : Str :=
  ("callsite:").toList ++ file ++ [':'] ++ natStr line

/-- The embedding text of a candidate: `` `${file} ${context}` ``. -/
def candText (c : CallCandidate) : Str :=
  c.file ++ [' '] ++ c.context

/-- The batched embedding loop of `rankCallSites`: embed the uncached
`{key, hash, text}` triples slice by slice and write the vectors into the
cache. -/
def embedUncachedIntoCacheGo (p : Provider) (requested : Option ℤ) :
    ℕ → List (Str × ℤ × Str) → EmbeddingCache → Except EmbedError EmbeddingCache
  | _, [], cache => .ok cache
  | 0, _ :: _, _ => .error .other
  | fuel + 1, u :: urest, cache =>
    let bs := getEmbeddingBatchSize requested
    let batch := (u :: urest).take bs
    (fetchEmbedding p requested (batch.map (fun b => b.2.2))).bind fun embeddings =>
      embedUncachedIntoCacheGo p requested fuel ((u :: urest).drop bs)
        ((batch.zip embeddings).foldl
          (fun c be => cacheInsert c be.1.1 ⟨be.1.2.1, be.2⟩) cache)

/-- Wrapper supplying sufficient fuel (the pending-list length; the fuel-0
branch above is dead). -/
def embedUncachedIntoCache (p : Provider) (requested : Option ℤ)
    (pending : List (Str × ℤ × Str)) (cache : EmbeddingCache) :
    Except EmbedError EmbeddingCache :=
  embedUncachedIntoCacheGo p requested pending.length pending cache

/-- The ranking phase of `rankCallSites` from `semantic-identifiers.ts`,
starting from the collected candidate occurrence lines (the claim quantifies
over "every set of candidate occurrence lines"): keep the top
`max(30, limit * 4)` candidates by keyword score, embed only those not
already cached, combine scores with the 0.82/0.18 weights, and return the top
`max(1, limit)` by combined score together with the pre-truncation candidate
count. -/
def rankCallSites (p : Provider) (requested : Option ℤ) (sqrtF : ℚ → ℚ)
    (cache : EmbeddingCache) (queryVec : Vec) (limit : ℕ)
    (candidates : List CallCandidate) : Except EmbedError (List CallSite × ℕ) :=
  if candidates.length = 0 then .ok ([], 0)
  else
    let embedBudget := max 30 (limit * 4)
    let sampled := (candidates.insertionSort candKwOrder).take (min embedBudget candidates.length)
    let keyed := sampled.map fun c => (c, callsiteKey c.file c.line, hashContent (candText c))
    let uncached := keyed.filterMap fun ck =>
      match cacheLookup cache ck.2.1 with
      | some entry => if entry.hash = ck.2.2 then none else some (ck.2.1, ck.2.2, candText ck.1)
      | none => some (ck.2.1, ck.2.2, candText ck.1)
    (embedUncachedIntoCache p requested uncached cache).bind fun cacheAfter =>
      let ranked := keyed.map fun ck =>
        let vector := (cacheLookup cacheAfter ck.2.1).map (fun e => e.vector)
        let semanticScore :=
          match vector with
          | some v => max (cosine sqrtF queryVec v) 0
          | none => 0
        let score := clamp01 (semanticScore * (82 / 100) + ck.1.keywordScore * (18 / 100))
        CallSite.mk ck.1.file ck.1.line ck.1.context semanticScore ck.1.keywordScore score
      .ok ((ranked.insertionSort siteScoreOrder).take (max 1 limit), candidates.length)

/-! ### Spectral clustering (`src/core/clustering.ts`) -/

/-- `ClusterResult` from `clustering.ts`. -/
structure ClusterResult where
  indices : List ℕ
deriving DecidableEq, Repr

/-- `buildAffinityMatrix`: zero diagonal, `max(0, cosine(v_i, v_j))` off the
diagonal (the source fills the upper triangle and mirrors it; `cosine` is
symmetric for the equal-length vectors of one model, so the matrix is written
here pointwise). -/
def buildAffinityMatrix (sqrtF : ℚ → ℚ) (vectors : List Vec) : List (List ℚ) :=
  (List.range vectors.length).map fun i =>
    (List.range vectors.length).map fun j =>
      if i = j then 0 else max 0 (cosine sqrtF (vectors.getD i []) (vectors.getD j []))

/-- Row sums of the affinity matrix excluding the diagonal (`degrees`). -/
def affinityDegree (affinity : List (List ℚ)) (i : ℕ) : ℚ :=
  ((List.range affinity.length).map fun j =>
    if i = j then 0 else (affinity.getD i []).getD j 0).sum

/-- `normalizedLaplacian`: diagonal 1, off-diagonal
`-affinity[i][j] / sqrt(d_i * d_j)` when both degrees exceed `1e-10`, else 0. -/
def normalizedLaplacian (sqrtF : ℚ → ℚ) (affinity : List (List ℚ)) : List (List ℚ) :=
  (List.range affinity.length).map fun i =>
    (List.range affinity.length).map fun j =>
      if i = j then 1
      else
        if 1 / 10 ^ 10 < affinityDegree affinity i ∧ 1 / 10 ^ 10 < affinityDegree affinity j then
          -((affinity.getD i []).getD j 0) / sqrtF (affinityDegree affinity i * affinityDegree affinity j)
        else 0

/-- Abstract model of `ml-matrix`'s `EigenvalueDecomposition`: from a matrix,
the list of real eigenvalues and the eigenvector-matrix accessor
`(row, column) ↦ entry`. -/
structure EigenOracle where
  decompose : List (List ℚ) → List ℚ × (ℕ → ℕ → ℚ)

/-- `Math.floor(Math.sqrt(n))` for a natural `n`: the largest `m` with
`m * m ≤ n`, written executably. -/
def floorSqrt (n : ℕ) : ℕ :=
  ((List.range (n + 1)).filter fun m => m * m ≤ n).getLastD 0

/-- The `{v, i}` pairs of `spectralCluster`'s eigenvalue sort, ordered by
eigenvalue (ties stable, i.e. by original index, as for JavaScript's stable
numeric sort). -/
def eigenPairOrder (a b : ℕ × ℚ) : Prop :=
  a.2 ≤ b.2

instance : DecidableRel eigenPairOrder := fun a b =>
  inferInstanceAs (Decidable (a.2 ≤ b.2))

/-- `gap = sorted[k] - sorted[k - 1]`, the consecutive eigenvalue gap at
position `k` of the ascending-sorted eigenvalue list. -/
def eigengapAt (sorted : List ℚ) (k : ℕ) : ℚ :=
  sorted.getD k 0 - sorted.getD (k - 1) 0

/-- The `bestGap`/`bestK` scan of `findOptimalK`: keep the first position
whose gap strictly exceeds the best so far. -/
def eigengapFold (gap : ℕ → ℚ) (ks : List ℕ) (best : ℚ × ℕ) : ℚ × ℕ :=
  ks.foldl (fun best k => if best.1 < gap k then (gap k, k) else best) best

/-- `findOptimalK` from `clustering.ts`: sort the eigenvalues ascending and
scan the consecutive gaps at positions `2 … min(maxK, length - 1)`, keeping
the first position whose gap strictly exceeds the best so far (initially gap
0 at position 2); with at most two eigenvalues return `min(2, length)`. -/
def findOptimalK (eigenvalues : List ℚ) (maxK : ℕ) : ℕ :=
  let sorted := eigenvalues.insertionSort (· ≤ ·)
  if sorted.length ≤ 2 then min 2 sorted.length
  else
    let limit := min maxK (sorted.length - 1)
    (eigengapFold (eigengapAt sorted) (List.range' 2 (limit - 1)) (0, 2)).2

/-- Squared euclidean distance over the first `dim` coordinates. -/
def sqDist (a b : List ℚ) (dim : ℕ) : ℚ :=
  ((List.range dim).map fun d => (a.getD d 0 - b.getD d 0) * (a.getD d 0 - b.getD d 0)).sum

/-- Minimum squared distance from a point to a list of centroids (the
`Math.min` fold of `kMeans`, whose `Infinity` start is absorbed by the first
centroid; the centroid list is never empty at the call site). -/
def minSqDistTo (pt : List ℚ) (dim : ℕ) : List (List ℚ) → ℚ
  | [] => 0
  | c :: cs => cs.foldl (fun acc cen => min acc (sqDist pt cen dim)) (sqDist pt c dim)

/-- One step of the farthest-point seeding of `kMeans`: the unused point of
maximal minimum squared distance to the existing centroids (`bestDist`
starts at `-1` and updates on strict increase, so the first maximiser wins). -/
def farthestIdx (data : List (List ℚ)) (dim : ℕ) (centroids : List (List ℚ))
    (used : List ℕ) : ℕ :=
  ((List.range data.length).foldl
    (fun (best : ℚ × ℕ) i =>
      if i ∈ used then best
      else
        let d := minSqDistTo (data.getD i []) dim centroids
        if best.1 < d then (d, i) else best)
    (-1, 0)).2

/-- The seeding loop of `kMeans`: first centroid is point 0; each further
centroid is the farthest unused point. -/
def seedCentroids (data : List (List ℚ)) (dim : ℕ) : ℕ → List (List ℚ) × List ℕ
  | 0 => ([data.headD []], [0])
  | c + 1 =>
    let prev := seedCentroids data dim c
    let idx := farthestIdx data dim prev.1 prev.2
    (prev.1 ++ [data.getD idx []], prev.2 ++ [idx])

/-- Assignment step of `kMeans`: index of the first centroid of minimal
squared distance (`bestDist` starts at `Infinity`, updates on strict
decrease). -/
def argminCentroid (pt : List ℚ) (dim : ℕ) (centroids : List (List ℚ)) : ℕ :=
  ((centroids.enum.foldl
    (fun (best : Option (ℚ × ℕ)) ce =>
      let dist := sqDist pt ce.2 dim
      match best with
      | none => some (dist, ce.1)
      | some b => if dist < b.1 then some (dist, ce.1) else some b)
    none).map (fun b => b.2)).getD 0

/-- Centroid update step of `kMeans`: each non-empty cluster's centroid
becomes the member mean; empty clusters keep their centroid. -/
def updateCentroids (data : List (List ℚ)) (k dim : ℕ) (centroids : List (List ℚ))
    (assignments : List ℕ) : List (List ℚ) :=
  (List.range k).map fun c =>
    let members := (List.range data.length).filter fun i => assignments.getD i 0 = c
    if members.length = 0 then centroids.getD c []
    else
      (List.range dim).map fun d =>
        ((members.map fun m => (data.getD m []).getD d 0).sum) / (members.length : ℚ)

/-- The bounded iteration loop of `kMeans` (at most 50 rounds, stopping early
when no assignment changes; centroids are only updated after a changed
round). -/
def kMeansLoop (data : List (List ℚ)) (k dim n : ℕ) :
    ℕ → List (List ℚ) → List ℕ → List ℕ
  | 0, _, assignments => assignments
  | fuel + 1, centroids, assignments =>
    let next := (List.range n).map fun i => argminCentroid (data.getD i []) dim centroids
    if next = assignments then next
    else kMeansLoop data k dim n fuel (updateCentroids data k dim centroids next) next

/-- `kMeans` from `clustering.ts`: deterministic farthest-point seeding, then
the capped assignment/update loop starting from the all-zero assignment. -/
def kMeans (data : List (List ℚ)) (k : ℕ) : List ℕ :=
  let n := data.length
  let dim := (data.headD []).length
  let centroids := (seedCentroids data dim (k - 1)).1
  kMeansLoop data k dim n 50 centroids (List.replicate n 0)

/-- `clusters.get(c)!.push(i)` on an insertion-ordered map: append `i` to the
group of key `c`, creating the group at the end on first sight of `c`. -/
def insertGrouped (acc : List (ℕ × List ℕ)) (c i : ℕ) : List (ℕ × List ℕ) :=
  match acc with
  | [] => [(c, [i])]
  | (key, xs) :: rest =>
    if key = c then (key, xs ++ [i]) :: rest else (key, xs) :: insertGrouped rest c i

/-- Group point indices by assignment, in first-seen key order (the `Map`
accumulation at the end of `spectralCluster`). -/
def groupAssignments (assignments : List ℕ) : List (List ℕ) :=
  (assignments.enum.foldl (fun acc p => insertGrouped acc p.2 p.1) []).map fun g => g.2

/-- Row L2-normalisation of the spectral embedding (skipped below `1e-10`). -/
def normalizeRow (sqrtF : ℚ → ℚ) (row : List ℚ) : List ℚ :=
  let norm := sqrtF ((row.map fun v => v * v).sum)
  if 1 / 10 ^ 10 < norm then row.map (fun v => v / norm) else row

/-- `spectralCluster` from `clustering.ts` (default `maxClusters = 20` at the
call sites): a single point (or none) is one cluster; at most `maxClusters`
points become singleton clusters; otherwise build the affinity matrix and
normalized Laplacian, eigendecompose (via the oracle), pick `k` by the
eigengap heuristic bounded by `min(maxClusters, max(2, ⌊√n⌋))`, embed each
point through the `k` eigenvectors of smallest eigenvalue (ascending stable
sort of the eigenvalues by value), L2-normalise the rows, run `kMeans` and
group the points by assignment. -/
def spectralCluster (oracle : EigenOracle) (sqrtF : ℚ → ℚ) (vectors : List Vec)
    (maxClusters : ℕ) : List ClusterResult :=
  let n := vectors.length
  if n ≤ 1 then [⟨List.range n⟩]
  else if n ≤ maxClusters then (List.range n).map fun i => ⟨[i]⟩
  else
    let affinity := buildAffinityMatrix sqrtF vectors
    let laplacian := normalizedLaplacian sqrtF affinity
    let eigen := oracle.decompose laplacian
    let k := findOptimalK eigen.1 (min maxClusters (max 2 (floorSqrt n)))
    let sortedIndices := (eigen.1.enum.insertionSort eigenPairOrder).map fun x => x.1
    let embedding := (List.range n).map fun i =>
      normalizeRow sqrtF ((List.range k).map fun j => eigen.2 i (sortedIndices.getD j 0))
    let assignments := kMeans embedding k
    (groupAssignments assignments).map ClusterResult.mk

/-- `findPathPattern` from `clustering.ts`: common slash-separated directory
prefix (all but the last segment) plus common final segment, rendered as
`prefix/suffix`, `prefix/*`, `*/suffix`, or `null`. -/
def findPathPattern (paths : List Str) : Option Str :=
  if paths.length ≤ 1 then none
  else
    let parts := paths.map fun p => p.splitOn '/'
    let lens := parts.map List.length
    let minLen := lens.foldl min (lens.headD 0)
    let stop := minLen - 1
    let agreeCount :=
      ((List.range stop).takeWhile fun i =>
        parts.all fun p => p.getD i [] = (parts.headD []).getD i []).length
    let commonPre : Str :=
      (((List.range agreeCount).map fun i => (parts.headD []).getD i [] ++ ['/'])).flatten
    let suffixes := paths.map fun p => (p.splitOn '/').getLastD []
    let allSameSuffix := suffixes.all fun s => s = suffixes.headD []
    if commonPre.length ≠ 0 ∧ allSameSuffix then some (commonPre ++ suffixes.headD [])
    else if commonPre.length ≠ 0 then some (commonPre ++ ['*'])
    else if allSameSuffix then some (['*', '/'] ++ suffixes.headD [])
    else none

/-! ### Navigator hierarchy (`src/tools/context-tree.ts`) -/

/-- `FileInfo` from `context-tree.ts`. -/
structure FileInfo where
  relativePath : Str := []
  header : Str := []
  content : Str := []
  symbolPreview : List Str := []
deriving DecidableEq, Inhabited

/-- `ClusterNode` from `context-tree.ts`. -/
inductive ClusterNode where
  | mk (label : Str) (pathPat : Option Str) (files : List FileInfo) (children : List ClusterNode)

/-- The `files` field of a `ClusterNode`. -/
def ClusterNode.files : ClusterNode → List FileInfo
  | .mk _ _ fs _ => fs

/-- The `children` field of a `ClusterNode`. -/
def ClusterNode.children : ClusterNode → List ClusterNode
  | .mk _ _ _ cs => cs

/-- The `label` field of a `ClusterNode`. -/
def ClusterNode.label : ClusterNode → Str
  | .mk l _ _ _ => l

/-- `child.label = labels[i]` (the label assignment after recursion). -/
def ClusterNode.relabel : ClusterNode → Str → ClusterNode
  | .mk _ pp fs cs, l => .mk l pp fs cs

/-- `MAX_FILES_PER_LEAF` from `context-tree.ts`. -/
def MAX_FILES_PER_LEAF : ℕ := 20

/-- The leaf node built by `buildHierarchy` (empty label, path pattern of the
member paths). -/
def leafNode (files : List FileInfo) : ClusterNode :=
  .mk [] (findPathPattern (files.map fun f => f.relativePath)) files []

/-- `buildHierarchy` with the remaining depth (`maxDepth - depth`) made
explicit as fuel; `labeler` is the pure model of `labelSiblingClusters`
(Ollama labelling with path-pattern fallback), which receives each sibling's
files and path pattern and returns the sibling labels. -/
def buildHierarchyAux (oracle : EigenOracle) (sqrtF : ℚ → ℚ)
    (labeler : List (List FileInfo × Option Str) → List Str) (maxClusters : ℕ) :
    ℕ → List FileInfo → List Vec → ClusterNode
  | 0, files, _ => leafNode files
  | fuel + 1, files, vectors =>
    if files.length ≤ MAX_FILES_PER_LEAF then leafNode files
    else
      let clusterResults := spectralCluster oracle sqrtF vectors maxClusters
      if clusterResults.length ≤ 1 then leafNode files
      else
        let childMetas := clusterResults.map fun c =>
          (c.indices.map fun i => files.getD i default,
           c.indices.map fun i => vectors.getD i [],
           findPathPattern (c.indices.map fun i => (files.getD i default).relativePath))
        let labels := labeler (childMetas.map fun m => (m.1, m.2.2))
        let children := childMetas.enum.map fun im =>
          (buildHierarchyAux oracle sqrtF labeler maxClusters fuel im.2.1 im.2.2.1).relabel
            (labels.getD im.1 [])
        .mk [] (findPathPattern (files.map fun f => f.relativePath)) [] children
termination_by fuel _ _ => fuel

/-- `buildHierarchy` from `context-tree.ts`: recursively cluster while the
file count exceeds `MAX_FILES_PER_LEAF` and `depth < maxDepth`; a clustering
that yields at most one cluster also terminates as a leaf. -/
def buildHierarchy (oracle : EigenOracle) (sqrtF : ℚ → ℚ)
    (labeler : List (List FileInfo × Option Str) → List Str) (files : List FileInfo)
    (vectors : List Vec) (maxClusters depth maxDepth : ℕ) : ClusterNode :=
  buildHierarchyAux oracle sqrtF labeler maxClusters (maxDepth - depth) files vectors

/-- All files of all leaves of a cluster tree (internal nodes carry no
files). -/
def leafFiles : ClusterNode → List FileInfo
  | .mk _ _ fs cs => fs ++ (cs.attach.map fun c => leafFiles c.1).flatten
decreasing_by
  have := List.sizeOf_lt_of_mem c.2
  simp only [ClusterNode.mk.sizeOf_spec]
  omega

/-! ### Witness fixtures -/

/-- Witness provider: batches of two or more inputs fail with a context-length
error, singletons succeed; the embedding of a text is its length (this is the
mock used by the repository's own `embeddings.test.mjs`). -/
def splitFailProvider : Provider where
  embedOne t := [(t.length : ℚ)]
  callFails l := if 2 ≤ l.length then some true else none

/-- Witness provider: every call fails with a context-length error. -/
def alwaysCtxProvider : Provider where
  embedOne t := [(t.length : ℚ)]
  callFails _ := some true

/-- Witness provider: every call fails with a non-context-length error. -/
def alwaysOtherProvider : Provider where
  embedOne t := [(t.length : ℚ)]
  callFails _ := some false

/-- Witness provider: calls succeed unless some input exceeds 300 chars. -/
def over300Provider : Provider where
  embedOne t := [(t.length : ℚ)]
  callFails l := if l.any fun t => 300 < t.length then some true else none

/-- Witness provider: every call succeeds. -/
def okProvider : Provider where
  embedOne t := [(t.length : ℚ)]
  callFails _ := none

/-- Witness input texts (those of the repository's order-preservation test). -/
def witnessTexts : List Str :=
  ["alpha", "beta", "gamma", "delta", "epsilon"].map String.toList

/-- A ten-character witness input (below the 256-character shrink floor). -/
def shortInput : Str :=
  ("abcdefghij").toList

/-- Witness square-root stand-in (the claims hold for every `sqrtF`). -/
def idRat : ℚ → ℚ := id

/-- Witness search document. -/
def wdoc : SearchDocument where
  path := ("a.ts").toList
  header := ("alpha file").toList
  symbols := []
  content := ("aaa").toList

/-- Witness query whose tokens miss `wdoc` entirely. -/
def wquery : Str :=
  ("zz").toList

/-- Witness document that embeds successfully (used as the healthy sibling of
the aborting index build). -/
def goodDoc : SearchDocument where
  path := ("good.ts").toList
  header := ("good").toList
  symbols := []
  content := ("fine").toList

/-- Witness document whose embedding fails terminally. -/
def badDoc : SearchDocument where
  path := ("bad.ts").toList
  header := ("bad").toList
  symbols := []
  content := []

/-- A cache that already holds a valid vector for `goodDoc` (hash match), so
only `badDoc` needs embedding. -/
def goodDocCache : EmbeddingCache :=
  [(goodDoc.path, ⟨hashContent (docEmbedText goodDoc), [1]⟩)]

/-- Fifty witness call-site candidate lines (file `f`, lines 1–50). -/
def fiftyCandidates : List CallCandidate :=
  (List.range 50).map fun i => ⟨("f").toList, i + 1, ("x").toList, 0⟩

/-- Witness eigenvalue list with its largest consecutive gap at position 2. -/
def weigen : List ℚ :=
  [0, 1 / 10, 9 / 10, 1, 11 / 10, 23 / 20, 6 / 5, 121 / 100, 5 / 4]

/-- Witness file infos for the navigator. -/
def wfiles : List FileInfo :=
  [{ relativePath := ("a.ts").toList }, { relativePath := ("b.ts").toList },
   { relativePath := ("c.ts").toList }]

/-- Witness vectors paired with `wfiles`. -/
def wvecs : List Vec :=
  [[1], [2], [3]]

/-- A trivial eigendecomposition oracle for witnesses (the claims hold for
every oracle). -/
def trivialOracle : EigenOracle :=
  ⟨fun _ => ([], fun _ _ => 0)⟩

/-- A trivial labelling collaborator for witnesses. -/
def trivialLabeler : List (List FileInfo × Option Str) → List Str :=
  fun metas => metas.map fun _ => []

/-- The relation between an input text and its final vector: the vector the
provider assigns to the text after zero or more shrink steps. -/
def EmbedsTo (p : Provider) (t : Str) (v : Vec) : Prop :=
  ∃ k, v = p.embedOne (shrinkIter k t)

end ContextPlus

namespace ContextPlus

/-! ## Supporting lemmas for the embedding adapter (claims C1, C3, C4, C9) -/

theorem shrinkIter_succ (k : ℕ) (t : Str) :
    shrinkIter (k + 1) t = shrinkIter k (shrinkEmbeddingInput t) := rfl

/-- Successful adaptive single embedding: the result is the provider's vector
for the candidate obtained by `k` shrink steps, every earlier attempt failed
with a context-length error, and the successful attempt did not fail. -/
theorem embedSingleAdaptiveAux_ok (p : Provider) (fuel : ℕ) (cand : Str) (v : Vec)
    (h : embedSingleAdaptiveAux p fuel cand = .ok v) :
    ∃ k, k < fuel ∧ v = p.embedOne (shrinkIter k cand) ∧
      (∀ j < k, p.callFails [shrinkIter j cand] = some true) ∧
      p.callFails [shrinkIter k cand] = none := by
  induction fuel generalizing cand with
  | zero => simp [embedSingleAdaptiveAux] at h
  | succ n ih =>
    rw [embedSingleAdaptiveAux] at h
    cases hc : p.callFails [cand] with
    | none =>
      rw [hc] at h
      refine ⟨0, Nat.succ_pos n, ?_, ?_, ?_⟩
      · cases h
        rfl
      · intro j hj
        omega
      · exact hc
    | some b =>
      cases b with
      | false => rw [hc] at h; cases h
      | true =>
        rw [hc] at h
        by_cases hl : (shrinkEmbeddingInput cand).length = cand.length
        · simp only [hl, if_true] at h
          cases h
        · simp only [hl, if_false] at h
          obtain ⟨k, hk, hv, hall, hnone⟩ := ih (shrinkEmbeddingInput cand) h
          refine ⟨k + 1, by omega, ?_, ?_, ?_⟩
          · rw [shrinkIter_succ]
            exact hv
          · intro j hj
            cases j with
            | zero => exact hc
            | succ j => rw [shrinkIter_succ]; exact hall j (by omega)
          · rw [shrinkIter_succ]
            exact hnone

/-- If the singleton call for the original candidate never context-fails, the
adaptive single embedding succeeds only with the unshrunk vector. -/
theorem embedSingleAdaptiveAux_ok_nofail (p : Provider) (fuel : ℕ) (cand : Str) (v : Vec)
    (hf : p.callFails [cand] ≠ some true)
    (h : embedSingleAdaptiveAux p (fuel + 1) cand = .ok v) : v = p.embedOne cand := by
  rw [embedSingleAdaptiveAux] at h
  cases hc : p.callFails [cand] with
  | none =>
    rw [hc] at h
    cases h
    rfl
  | some b =>
    cases b with
    | false => rw [hc] at h; cases h
    | true => exact absurd hc hf

/-- `embedSingleAdaptiveAux_ok` restated on `embedSingleAdaptive`. -/
theorem embedSingleAdaptive_ok (p : Provider) (input : Str) (v : Vec)
    (h : embedSingleAdaptive p input = .ok v) :
    ∃ k, k ≤ MAX_SINGLE_INPUT_RETRIES ∧ v = p.embedOne (shrinkIter k input) ∧
      (∀ j < k, p.callFails [shrinkIter j input] = some true) ∧
      p.callFails [shrinkIter k input] = none := by
  rw [embedSingleAdaptive] at h
  obtain ⟨k, hk, hv, hall, hnone⟩ := embedSingleAdaptiveAux_ok p _ input v h
  exact ⟨k, by omega, hv, hall, hnone⟩

/-- `embedSingleAdaptiveAux_ok_nofail` restated on `embedSingleAdaptive`. -/
theorem embedSingleAdaptive_ok_nofail (p : Provider) (input : Str) (v : Vec)
    (hf : p.callFails [input] ≠ some true)
    (h : embedSingleAdaptive p input = .ok v) : v = p.embedOne input := by
  rw [embedSingleAdaptive] at h
  exact embedSingleAdaptiveAux_ok_nofail p MAX_SINGLE_INPUT_RETRIES input v hf h

/-- Fuelled adaptive batch soundness: a successful `embedBatchAdaptiveGo`
pairs each input with a vector the provider assigns to one of its shrink
stages. -/
theorem embedBatchAdaptiveGo_ok_forall₂ (p : Provider) :
    ∀ (fuel : ℕ) (batch : List Str) (vs : List Vec),
      embedBatchAdaptiveGo p fuel batch = .ok vs → List.Forall₂ (EmbedsTo p) batch vs := by
  intro fuel
  induction fuel with
  | zero =>
    intro batch vs h
    simp [embedBatchAdaptiveGo] at h
  | succ m ih =>
    intro batch vs h
    rw [embedBatchAdaptiveGo] at h
    cases hc : p.callFails batch with
    | none =>
      rw [hc] at h
      injection h with h
      rw [← h]
      refine List.forall₂_map_right_iff.mpr (List.forall₂_same.mpr fun t _ => ⟨0, rfl⟩)
    | some b =>
      cases b with
      | false => rw [hc] at h; cases h
      | true =>
        rw [hc] at h
        by_cases h1 : batch.length = 1
        · rw [if_pos h1] at h
          obtain ⟨t, rfl⟩ := List.length_eq_one.mp h1
          simp only [List.headD_cons] at h
          cases hs : embedSingleAdaptive p t with
          | error e => rw [hs] at h; simp [Except.map] at h
          | ok v =>
            rw [hs] at h
            simp only [Except.map] at h
            injection h with h
            rw [← h]
            obtain ⟨k, _, hv, _, _⟩ := embedSingleAdaptive_ok p t v hs
            exact List.Forall₂.cons ⟨k, hv⟩ List.Forall₂.nil
        · by_cases h2 : batch.length ≤ 1
          · rw [if_neg h1, if_pos h2] at h
            cases h
          · rw [if_neg h1, if_neg h2] at h
            cases hl : embedBatchAdaptiveGo p m (batch.take ((batch.length + 1) / 2)) with
            | error e => rw [hl] at h; simp [Except.bind] at h
            | ok left =>
              cases hr : embedBatchAdaptiveGo p m (batch.drop ((batch.length + 1) / 2)) with
              | error e => rw [hl, hr] at h; simp [Except.bind] at h
              | ok right =>
                rw [hl, hr] at h
                simp only [Except.bind] at h
                injection h with h
                subst h
                have Fl := ih _ left hl
                have Fr := ih _ right hr
                simpa only [List.take_append_drop] using List.rel_append Fl Fr

/-- Successful adaptive batch embedding pairs each input with a vector the
provider assigns to one of its shrink stages. -/
theorem embedBatchAdaptive_ok_forall₂ (p : Provider) (batch : List Str) (vs : List Vec)
    (h : embedBatchAdaptive p batch = .ok vs) : List.Forall₂ (EmbedsTo p) batch vs :=
  embedBatchAdaptiveGo_ok_forall₂ p (batch.length + 1) batch vs h

/-- When no singleton call context-fails, a successful adaptive batch
embedding is exactly the per-input map of the provider. -/
theorem embedBatchAdaptiveGo_ok_nofail (p : Provider)
    (hsingle : ∀ t, p.callFails [t] ≠ some true) :
    ∀ (fuel : ℕ) (batch : List Str) (vs : List Vec),
      embedBatchAdaptiveGo p fuel batch = .ok vs → vs = batch.map p.embedOne := by
  intro fuel
  induction fuel with
  | zero =>
    intro batch vs h
    simp [embedBatchAdaptiveGo] at h
  | succ m ih =>
    intro batch vs h
    rw [embedBatchAdaptiveGo] at h
    cases hc : p.callFails batch with
    | none =>
      rw [hc] at h
      injection h with h
      exact h.symm
    | some b =>
      cases b with
      | false => rw [hc] at h; cases h
      | true =>
        rw [hc] at h
        by_cases h1 : batch.length = 1
        · rw [if_pos h1] at h
          obtain ⟨t, rfl⟩ := List.length_eq_one.mp h1
          simp only [List.headD_cons] at h
          cases hs : embedSingleAdaptive p t with
          | error e => rw [hs] at h; simp [Except.map] at h
          | ok v =>
            have hv : v = p.embedOne t := embedSingleAdaptive_ok_nofail p t v (hsingle t) hs
            rw [hs] at h
            simp only [Except.map] at h
            injection h with h
            rw [← h, hv]
            rfl
        · by_cases h2 : batch.length ≤ 1
          · rw [if_neg h1, if_pos h2] at h
            cases h
          · rw [if_neg h1, if_neg h2] at h
            cases hl : embedBatchAdaptiveGo p m (batch.take ((batch.length + 1) / 2)) with
            | error e => rw [hl] at h; simp [Except.bind] at h
            | ok left =>
              cases hr : embedBatchAdaptiveGo p m (batch.drop ((batch.length + 1) / 2)) with
              | error e => rw [hl, hr] at h; simp [Except.bind] at h
              | ok right =>
                rw [hl, hr] at h
                simp only [Except.bind] at h
                injection h with h
                rw [← h, ih _ left hl, ih _ right hr, ← List.map_append,
                  List.take_append_drop]

/-- Chunking loop soundness: a successful `fetchEmbeddingGo` pairs every
input with a vector of one of its shrink stages, positionally. -/
theorem fetchEmbeddingGo_ok_forall₂ (p : Provider) (requested : Option ℤ) :
    ∀ (fuel : ℕ) (input : List Str) (vs : List Vec),
      fetchEmbeddingGo p requested fuel input = .ok vs →
      List.Forall₂ (EmbedsTo p) input vs := by
  intro fuel
  induction fuel with
  | zero =>
    intro input vs h
    match input with
    | [] =>
      rw [fetchEmbeddingGo] at h
      injection h with h
      rw [← h]
      exact List.Forall₂.nil
    | t :: rest => simp [fetchEmbeddingGo] at h
  | succ m ih =>
    intro input vs h
    match input with
    | [] =>
      rw [fetchEmbeddingGo] at h
      injection h with h
      rw [← h]
      exact List.Forall₂.nil
    | t :: rest =>
      rw [fetchEmbeddingGo] at h
      cases hl : embedBatchAdaptive p ((t :: rest).take (getEmbeddingBatchSize requested)) with
      | error e => rw [hl] at h; simp [Except.bind] at h
      | ok vecs =>
        cases hr : fetchEmbeddingGo p requested m
            ((t :: rest).drop (getEmbeddingBatchSize requested)) with
        | error e => rw [hl, hr] at h; simp [Except.bind] at h
        | ok more =>
          rw [hl, hr] at h
          simp only [Except.bind] at h
          injection h with h
          subst h
          have Fl := embedBatchAdaptive_ok_forall₂ p _ vecs hl
          have Fr := ih _ more hr
          simpa only [List.take_append_drop] using List.rel_append Fl Fr

/-- Chunking loop exactness when no singleton call context-fails. -/
theorem fetchEmbeddingGo_ok_nofail (p : Provider) (requested : Option ℤ)
    (hsingle : ∀ t, p.callFails [t] ≠ some true) :
    ∀ (fuel : ℕ) (input : List Str) (vs : List Vec),
      fetchEmbeddingGo p requested fuel input = .ok vs → vs = input.map p.embedOne := by
  intro fuel
  induction fuel with
  | zero =>
    intro input vs h
    match input with
    | [] =>
      rw [fetchEmbeddingGo] at h
      injection h with h
      exact h.symm
    | t :: rest => simp [fetchEmbeddingGo] at h
  | succ m ih =>
    intro input vs h
    match input with
    | [] =>
      rw [fetchEmbeddingGo] at h
      injection h with h
      exact h.symm
    | t :: rest =>
      rw [fetchEmbeddingGo] at h
      cases hl : embedBatchAdaptive p ((t :: rest).take (getEmbeddingBatchSize requested)) with
      | error e => rw [hl] at h; simp [Except.bind] at h
      | ok vecs =>
        cases hr : fetchEmbeddingGo p requested m
            ((t :: rest).drop (getEmbeddingBatchSize requested)) with
        | error e => rw [hl, hr] at h; simp [Except.bind] at h
        | ok more =>
          rw [hl, hr] at h
          simp only [Except.bind] at h
          injection h with h
          rw [← h,
            embedBatchAdaptiveGo_ok_nofail p hsingle _ _ vecs hl,
            ih _ more hr, ← List.map_append, List.take_append_drop]

/-- A successful `fetchEmbedding` pairs inputs and vectors positionally. -/
theorem fetchEmbedding_ok_forall₂ (p : Provider) (requested : Option ℤ)
    (input : List Str) (vs : List Vec) (h : fetchEmbedding p requested input = .ok vs) :
    List.Forall₂ (EmbedsTo p) input vs :=
  fetchEmbeddingGo_ok_forall₂ p requested input.length input vs h

/-- A successful `fetchEmbedding` returns exactly one vector per input. -/
theorem fetchEmbedding_ok_length (p : Provider) (requested : Option ℤ)
    (input : List Str) (vs : List Vec) (h : fetchEmbedding p requested input = .ok vs) :
    vs.length = input.length :=
  (fetchEmbedding_ok_forall₂ p requested input vs h).length_eq.symm

/-- C1: for every input list of texts, a successful `fetchEmbedding` returns a
list of the same length whose vector at position `i` is the provider's
embedding of `texts[i]` (after the zero or more context-length shrink steps of
that single input), for every batch size and every pattern of
context-length-triggered bisection; when no singleton call context-fails, the
result is exactly `texts.map embedOne`, independent of how batches were
split. -/
theorem fetchEmbedding_preserves_order (p : Provider) (requested : Option ℤ)
    (texts : List Str) (vs : List Vec)
    (hok : fetchEmbedding p requested texts = .ok vs) :
    vs.length = texts.length ∧
    (∀ i (hi : i < texts.length) (hv : i < vs.length),
      ∃ k, vs.get ⟨i, hv⟩ = p.embedOne (shrinkIter k (texts.get ⟨i, hi⟩))) ∧
    ((∀ t, p.callFails [t] ≠ some true) → vs = texts.map p.embedOne) := by
  have F := fetchEmbedding_ok_forall₂ p requested texts vs hok
  refine ⟨F.length_eq.symm, ?_, ?_⟩
  · intro i hi hv
    exact (List.forall₂_iff_get.mp F).2 i hi hv
  · intro hsingle
    exact fetchEmbeddingGo_ok_nofail p requested hsingle texts.length texts vs hok

/-- Witness for C1: the repository's own order-preservation mock (batches of
two or more context-fail, forcing bisection down to singletons) embeds the
five test words to their lengths, in input order. -/
theorem fetchEmbedding_preserves_order_witness :
    ([[(5 : ℚ)], [4], [5], [5], [7]] : List Vec) = witnessTexts.map splitFailProvider.embedOne :=
  (fetchEmbedding_preserves_order splitFailProvider none witnessTexts
    [[(5 : ℚ)], [4], [5], [5], [7]] (by decide)).2.2
    (by intro t; simp [splitFailProvider])

/-! ## Claim C4: the adaptive retry policy of `embedSingleAdaptive` -/

/-- A budget-exhaustion failure means every allowed attempt context-failed. -/
theorem embedSingleAdaptiveAux_exhausted (p : Provider) (fuel : ℕ) (cand : Str)
    (h : embedSingleAdaptiveAux p fuel cand = .error .exhausted) :
    ∀ j < fuel, p.callFails [shrinkIter j cand] = some true := by
  induction fuel generalizing cand with
  | zero => intro j hj; omega
  | succ n ih =>
    intro j hj
    rw [embedSingleAdaptiveAux] at h
    cases hc : p.callFails [cand] with
    | none => rw [hc] at h; cases h
    | some b =>
      cases b with
      | false => rw [hc] at h; cases h
      | true =>
        rw [hc] at h
        by_cases hl : (shrinkEmbeddingInput cand).length = cand.length
        · rw [if_pos hl] at h
          cases h
        · rw [if_neg hl] at h
          cases j with
          | zero => exact hc
          | succ j => rw [shrinkIter_succ]; exact ih (shrinkEmbeddingInput cand) h j (by omega)

/-- A propagated context-length failure means some attempt within the budget
context-failed on a candidate that shrinking could no longer reduce. -/
theorem embedSingleAdaptiveAux_ctx (p : Provider) (fuel : ℕ) (cand : Str)
    (h : embedSingleAdaptiveAux p fuel cand = .error .ctx) :
    ∃ k, k < fuel ∧ p.callFails [shrinkIter k cand] = some true ∧
      (shrinkEmbeddingInput (shrinkIter k cand)).length = (shrinkIter k cand).length := by
  induction fuel generalizing cand with
  | zero => simp [embedSingleAdaptiveAux] at h
  | succ n ih =>
    rw [embedSingleAdaptiveAux] at h
    cases hc : p.callFails [cand] with
    | none => rw [hc] at h; cases h
    | some b =>
      cases b with
      | false => rw [hc] at h; cases h
      | true =>
        rw [hc] at h
        by_cases hl : (shrinkEmbeddingInput cand).length = cand.length
        · exact ⟨0, by omega, hc, hl⟩
        · rw [if_neg hl] at h
          obtain ⟨k, hk, hfail, hstuck⟩ := ih (shrinkEmbeddingInput cand) h
          exact ⟨k + 1, by omega, by rw [shrinkIter_succ]; exact hfail,
            by rw [shrinkIter_succ]; exact hstuck⟩

/-- C4 (amended): a non-context-length error propagates immediately after a
single provider call; a successful result is the provider's vector for the
input shrunk `k ≤ 8` times, every earlier attempt having context-failed; the
budget-exhaustion error occurs only after all nine allowed attempts
context-failed; and the propagated context-length error occurs only when some
attempt within the budget context-failed on a candidate that shrinking could
no longer reduce (so terminal failure can also occur before the retry budget
is exhausted). -/
theorem embedSingleAdaptive_retry_policy (p : Provider) (input : Str) :
    (p.callFails [input] = some false →
      embedSingleAdaptive p input = .error .other ∧
      embedSingleAdaptiveCalls p input = 1) ∧
    (∀ v, embedSingleAdaptive p input = .ok v →
      ∃ k, k ≤ MAX_SINGLE_INPUT_RETRIES ∧ v = p.embedOne (shrinkIter k input) ∧
        (∀ j < k, p.callFails [shrinkIter j input] = some true) ∧
        p.callFails [shrinkIter k input] = none) ∧
    (embedSingleAdaptive p input = .error .exhausted →
      ∀ j ≤ MAX_SINGLE_INPUT_RETRIES, p.callFails [shrinkIter j input] = some true) ∧
    (embedSingleAdaptive p input = .error .ctx →
      ∃ k, k ≤ MAX_SINGLE_INPUT_RETRIES ∧ p.callFails [shrinkIter k input] = some true ∧
        (shrinkEmbeddingInput (shrinkIter k input)).length = (shrinkIter k input).length) := by
  refine ⟨?_, ?_, ?_, ?_⟩
  · intro hf
    rw [embedSingleAdaptive, embedSingleAdaptiveCalls, embedSingleAdaptiveAux,
      embedSingleAdaptiveCallsAux, hf]
    exact ⟨rfl, rfl⟩
  · intro v h
    exact embedSingleAdaptive_ok p input v h
  · intro h j hj
    rw [embedSingleAdaptive] at h
    exact embedSingleAdaptiveAux_exhausted p _ input h j (by omega)
  · intro h
    rw [embedSingleAdaptive] at h
    obtain ⟨k, hk, hfail, hstuck⟩ := embedSingleAdaptiveAux_ctx p _ input h
    exact ⟨k, by omega, hfail, hstuck⟩

/-- Witness for the amended C4: a provider failing with a non-context error
gives up immediately after exactly one call. -/
theorem embedSingleAdaptive_retry_policy_witness :
    embedSingleAdaptive alwaysOtherProvider shortInput = .error .other ∧
    embedSingleAdaptiveCalls alwaysOtherProvider shortInput = 1 :=
  (embedSingleAdaptive_retry_policy alwaysOtherProvider shortInput).1 (by decide)

/-- Counterexample to C4 as stated: on a ten-character input (already at the
shrink floor) whose singleton call context-fails, `embedSingleAdaptive` fails
terminally after a single provider call — the propagated context-length
error, not the budget-exhaustion error — although the retry budget would
allow `MAX_SINGLE_INPUT_RETRIES + 1 = 9` attempts. -/
theorem embedSingleAdaptive_early_terminal_failure :
    embedSingleAdaptive alwaysCtxProvider shortInput = .error .ctx ∧
    embedSingleAdaptiveCalls alwaysCtxProvider shortInput = 1 ∧
    1 < MAX_SINGLE_INPUT_RETRIES + 1 := by
  decide

/-! ## Claim C8: threshold normalization -/

theorem normalizeThreshold_half_eq_fifty (fb : ℚ) :
    normalizeThreshold (some (1 / 2)) fb = normalizeThreshold (some 50) fb := by
  unfold normalizeThreshold clamp01
  norm_num

/-- The three per-field resolved-option equalities between a fraction and its
percentage form. -/
theorem resolveSearchOptions_half_eq_fifty (o : SearchQueryOptions) :
    resolveSearchOptions { o with minSemanticScore := some (1 / 2) } =
      resolveSearchOptions { o with minSemanticScore := some 50 } ∧
    resolveSearchOptions { o with minKeywordScore := some (1 / 2) } =
      resolveSearchOptions { o with minKeywordScore := some 50 } ∧
    resolveSearchOptions { o with minCombinedScore := some (1 / 2) } =
      resolveSearchOptions { o with minCombinedScore := some 50 } := by
  refine ⟨?_, ?_, ?_⟩ <;>
    simp only [resolveSearchOptions, normalizeThreshold_half_eq_fifty]

/-- C8: threshold normalization treats a fraction and its percentage form
identically — every value above 1 is divided by 100 and clamped to `[0, 1]`,
and for each of the minimum-semantic, minimum-keyword and minimum-combined
thresholds, a search invoked with `0.5` returns exactly the same results as
the same search invoked with `50`. -/
theorem threshold_fraction_percentage_equiv :
    (∀ v fb : ℚ, 1 < v → normalizeThreshold (some v) fb = clamp01 (v / 100)) ∧
    (∀ (sqrtF : ℚ → ℚ) (documents : List SearchDocument) (vectors : List (Option Vec))
        (query : Str) (queryVec : Vec) (o : SearchQueryOptions),
      SearchIndex.search sqrtF documents vectors query queryVec
          { o with minSemanticScore := some (1 / 2) } =
        SearchIndex.search sqrtF documents vectors query queryVec
          { o with minSemanticScore := some 50 } ∧
      SearchIndex.search sqrtF documents vectors query queryVec
          { o with minKeywordScore := some (1 / 2) } =
        SearchIndex.search sqrtF documents vectors query queryVec
          { o with minKeywordScore := some 50 } ∧
      SearchIndex.search sqrtF documents vectors query queryVec
          { o with minCombinedScore := some (1 / 2) } =
        SearchIndex.search sqrtF documents vectors query queryVec
          { o with minCombinedScore := some 50 }) := by
  refine ⟨?_, ?_⟩
  · intro v fb hv
    show (if 1 < v then clamp01 (v / 100) else clamp01 v) = clamp01 (v / 100)
    rw [if_pos hv]
  · intro sqrtF documents vectors query queryVec o
    obtain ⟨h1, h2, h3⟩ := resolveSearchOptions_half_eq_fifty o
    unfold SearchIndex.search
    rw [h1, h2, h3]
    exact ⟨rfl, rfl, rfl⟩

/-- Witness for C8 at the concrete value 50. -/
theorem threshold_fraction_percentage_equiv_witness :
    normalizeThreshold (some 50) 0 = clamp01 (50 / 100) ∧
    SearchIndex.search idRat [wdoc] [some [1]] wquery [1]
        { minCombinedScore := some (1 / 2) } =
      SearchIndex.search idRat [wdoc] [some [1]] wquery [1]
        { minCombinedScore := some 50 } :=
  ⟨threshold_fraction_percentage_equiv.1 50 0 (by norm_num),
   (threshold_fraction_percentage_equiv.2 idRat [wdoc] [some [1]] wquery [1] {}).2.2⟩

/-! ## Claim C7: result ordering and top-K cap of `SearchIndex.search` -/

/-- C7: search results are the rounded projections of the sorted, truncated
score list; that list is ordered by descending combined score with ties
broken by descending keyword score and then descending semantic score; its
length is at most `topK`; and `topK` for a requested value is the value
floored and clamped to a minimum of 1. -/
theorem search_ordering_and_cap (sqrtF : ℚ → ℚ) (documents : List SearchDocument)
    (vectors : List (Option Vec)) (query : Str) (queryVec : Vec)
    (optionsRaw : SearchQueryOptions) :
    SearchIndex.search sqrtF documents vectors query queryVec optionsRaw =
      (searchSorted sqrtF documents vectors query queryVec optionsRaw).map
        (toSearchResult documents) ∧
    List.Pairwise resultOrder
      (searchSorted sqrtF documents vectors query queryVec optionsRaw) ∧
    (searchSorted sqrtF documents vectors query queryVec optionsRaw).length ≤
      (resolveSearchOptions optionsRaw).topK ∧
    (∀ v : ℚ, normalizeTopK (some v) 5 = (max 1 ⌊v⌋).toNat) := by
  refine ⟨rfl, ?_, ?_, fun v => rfl⟩
  · unfold searchSorted searchSortedResolved
    exact List.Pairwise.sublist (List.take_sublist _ _)
      (List.sorted_insertionSort resultOrder _)
  · unfold searchSorted searchSortedResolved
    exact List.length_take_le _ _

/-! ## Claim C10: the hidden default minimum combined score -/

/-- Every score entry surviving the filter loop has a combined score at least
the resolved minimum combined score. -/
theorem searchCollect_minCombined (sqrtF : ℚ → ℚ) (documents : List SearchDocument)
    (vectors : List (Option Vec)) (query : Str) (queryVec : Vec)
    (options : ResolvedSearchQueryOptions) (e : ScoredEntry)
    (he : e ∈ searchCollect sqrtF documents vectors query queryVec options) :
    options.minCombinedScore ≤ e.score := by
  simp only [searchCollect, List.mem_filterMap] at he
  obtain ⟨i, _, hsome⟩ := he
  cases hv : vectors.getD i none with
  | none => rw [hv] at hsome; cases hsome
  | some vec =>
    rw [hv] at hsome
    simp only at hsome
    split_ifs at hsome
    all_goals
      first
        | exact Option.noConfusion hsome
        | (injection hsome with hsome
           rw [← hsome]
           exact le_of_not_lt (by assumption))

/-- Entries of the sorted, truncated result list come from the filter loop. -/
theorem searchSorted_subset_collect (sqrtF : ℚ → ℚ) (documents : List SearchDocument)
    (vectors : List (Option Vec)) (query : Str) (queryVec : Vec)
    (optionsRaw : SearchQueryOptions) (e : ScoredEntry)
    (he : e ∈ searchSorted sqrtF documents vectors query queryVec optionsRaw) :
    e ∈ searchCollect sqrtF documents vectors query queryVec
      (resolveSearchOptions optionsRaw) := by
  unfold searchSorted searchSortedResolved at he
  exact (List.perm_insertionSort resultOrder _).mem_iff.mp (List.mem_of_mem_take he)

/-- C10: when `minCombinedScore` is omitted, every score entry that
`SearchIndex.search` keeps (even with every other filter option unset) has a
combined score of at least the hidden default `0.1`, and every returned
result reports a rounded percentage score of at least `10`. -/
theorem search_hidden_min_combined_default (sqrtF : ℚ → ℚ)
    (documents : List SearchDocument) (vectors : List (Option Vec)) (query : Str)
    (queryVec : Vec) (optionsRaw : SearchQueryOptions)
    (hmc : optionsRaw.minCombinedScore = none) :
    (∀ e ∈ searchSorted sqrtF documents vectors query queryVec optionsRaw,
      1 / 10 ≤ e.score) ∧
    (∀ r ∈ SearchIndex.search sqrtF documents vectors query queryVec optionsRaw,
      10 ≤ r.score) := by
  have hdef : (resolveSearchOptions optionsRaw).minCombinedScore = 1 / 10 := by
    simp only [resolveSearchOptions, hmc, normalizeThreshold]
  have hmem : ∀ e ∈ searchSorted sqrtF documents vectors query queryVec optionsRaw,
      1 / 10 ≤ e.score := by
    intro e he
    have := searchCollect_minCombined sqrtF documents vectors query queryVec
      (resolveSearchOptions optionsRaw) e
      (searchSorted_subset_collect sqrtF documents vectors query queryVec optionsRaw e he)
    rwa [hdef] at this
  refine ⟨hmem, ?_⟩
  intro r hr
  rw [(search_ordering_and_cap sqrtF documents vectors query queryVec optionsRaw).1] at hr
  obtain ⟨e, he, rfl⟩ := List.mem_map.mp hr
  have hscore := hmem e he
  show (10 : ℚ) ≤ roundPct e.score
  unfold roundPct
  have hfloor : (100 : ℤ) ≤ ⌊e.score * 1000 + 1 / 2⌋ := by
    rw [Int.le_floor]
    push_cast
    nlinarith
  calc (10 : ℚ) = (100 : ℤ) / 10 := by norm_num
  _ ≤ ((⌊e.score * 1000 + 1 / 2⌋ : ℤ) : ℚ) / 10 := by
      apply div_le_div_of_nonneg_right ?_ (by norm_num)
      exact_mod_cast hfloor
  _ = _ := rfl

/-- Witness for C10: with all options unset, the single surviving entry of a
concrete one-document index has combined score `18/25 ≥ 1/10`. -/
theorem search_hidden_min_combined_default_witness :
    (1 : ℚ) / 10 ≤ (18 : ℚ) / 25 :=
  (search_hidden_min_combined_default idRat [wdoc] [some [1]] wquery [1] {} rfl).1
    ⟨0, 18 / 25, 1, 0, [], []⟩ (by decide)

/-! ## Claims C9 and C3: completeness and failure mode of `SearchIndex.index` -/

theorem set_getD_isSome (l : List (Option Vec)) (i j : ℕ) (a : Vec)
    (h : (l.getD j none).isSome) : ((l.set i (some a)).getD j none).isSome := by
  rw [List.getD_eq_getElem?_getD, List.getElem?_set]
  rw [List.getD_eq_getElem?_getD] at h
  by_cases hij : i = j
  · subst hij
    by_cases hlt : i < l.length
    · simp [hlt]
    · have : l[i]? = none := List.getElem?_eq_none (by omega)
      rw [this] at h
      simp at h
  · simp [hij]
    exact h

theorem set_getD_self_isSome (l : List (Option Vec)) (i : ℕ) (a : Vec)
    (h : i < l.length) : ((l.set i (some a)).getD i none).isSome := by
  rw [List.getD_eq_getElem?_getD, List.getElem?_set]
  simp [h]

theorem indexFoldStep_foldl_length (docs : List SearchDocument) :
    ∀ (L : List ((ℕ × Str × ℤ) × Vec)) (vc : List (Option Vec) × EmbeddingCache),
      ((L.foldl (indexFoldStep docs) vc).1).length = vc.1.length := by
  intro L
  induction L with
  | nil => intro vc; rfl
  | cons b rest ih =>
    intro vc
    rw [List.foldl_cons, ih]
    simp [indexFoldStep, List.length_set]

theorem indexFoldStep_foldl_isSome (docs : List SearchDocument) :
    ∀ (L : List ((ℕ × Str × ℤ) × Vec)) (vc : List (Option Vec) × EmbeddingCache) (j : ℕ),
      (vc.1.getD j none).isSome →
      (((L.foldl (indexFoldStep docs) vc).1).getD j none).isSome := by
  intro L
  induction L with
  | nil => intro vc j h; exact h
  | cons b rest ih =>
    intro vc j h
    rw [List.foldl_cons]
    exact ih _ j (set_getD_isSome _ _ _ _ h)

theorem indexFoldStep_foldl_mem (docs : List SearchDocument) :
    ∀ (L : List ((ℕ × Str × ℤ) × Vec)) (vc : List (Option Vec) × EmbeddingCache)
      (be : (ℕ × Str × ℤ) × Vec), be ∈ L → be.1.1 < vc.1.length →
      (((L.foldl (indexFoldStep docs) vc).1).getD be.1.1 none).isSome := by
  intro L
  induction L with
  | nil => intro vc be h; cases h
  | cons b rest ih =>
    intro vc be hmem hlt
    rw [List.foldl_cons]
    rcases List.mem_cons.mp hmem with rfl | hmem
    · exact indexFoldStep_foldl_isSome docs rest _ be.1.1
        (set_getD_self_isSome _ _ _ hlt)
    · exact ih _ be hmem (by simpa [indexFoldStep, List.length_set] using hlt)

/-- A successful run of the batched embedding loop keeps the vector-array
length, preserves already-filled slots, and fills the slot of every queued
uncached document. -/
theorem indexBatchesGo_ok (p : Provider) (requested : Option ℤ) (docs : List SearchDocument) :
    ∀ (fuel : ℕ) (uncached : List (ℕ × Str × ℤ)) (vectors : List (Option Vec))
      (cache : EmbeddingCache) (vectors' : List (Option Vec)) (cache' : EmbeddingCache),
      indexBatchesGo p requested docs fuel uncached vectors cache = .ok (vectors', cache') →
      vectors'.length = vectors.length ∧
      (∀ j, (vectors.getD j none).isSome → (vectors'.getD j none).isSome) ∧
      (∀ u ∈ uncached, u.1 < vectors.length → (vectors'.getD u.1 none).isSome) := by
  intro fuel
  induction fuel with
  | zero =>
    intro uncached vectors cache vectors' cache' h
    match uncached with
    | [] =>
      rw [indexBatchesGo] at h
      injection h with h
      injection h with h1 h2
      subst h1
      exact ⟨rfl, fun j hj => hj, fun u hu => absurd hu (List.not_mem_nil u)⟩
    | _ :: _ => simp [indexBatchesGo] at h
  | succ m ih =>
    intro uncached vectors cache vectors' cache' h
    match uncached with
    | [] =>
      rw [indexBatchesGo] at h
      injection h with h
      injection h with h1 h2
      subst h1
      exact ⟨rfl, fun j hj => hj, fun u hu => absurd hu (List.not_mem_nil u)⟩
    | u :: urest =>
      rw [indexBatchesGo] at h
      simp only at h
      cases hfe : fetchEmbedding p requested
          (((u :: urest).take (getEmbeddingBatchSize requested)).map (fun b => b.2.1)) with
      | error e => rw [hfe] at h; simp [Except.bind] at h
      | ok embeddings =>
        rw [hfe] at h
        simp only [Except.bind] at h
        set bs := getEmbeddingBatchSize requested with hbs
        set batch := (u :: urest).take bs with hbatch
        set updated := (batch.zip embeddings).foldl (indexFoldStep docs) (vectors, cache)
          with hupd
        obtain ⟨ihlen, ihpres, ihmem⟩ := ih ((u :: urest).drop bs) updated.1 updated.2
          vectors' cache' h
        have hul : updated.1.length = vectors.length := by
          rw [hupd]
          exact indexFoldStep_foldl_length docs _ _
        have hemb : embeddings.length = (batch.map (fun b => b.2.1)).length :=
          fetchEmbedding_ok_length p requested _ embeddings hfe
        rw [List.length_map] at hemb
        refine ⟨ihlen.trans hul, ?_, ?_⟩
        · intro j hj
          refine ihpres j ?_
          rw [hupd]
          exact indexFoldStep_foldl_isSome docs _ _ j hj
        · intro v hv hvlt
          have hsplit : v ∈ batch ++ (u :: urest).drop bs := by
            rw [hbatch, List.take_append_drop]
            exact hv
          rcases List.mem_append.mp hsplit with hvb | hvd
          · have hfst : v ∈ (batch.zip embeddings).map Prod.fst := by
              rw [List.map_fst_zip batch embeddings (by omega)]
              exact hvb
            obtain ⟨be, hbe, hbefst⟩ := List.mem_map.mp hfst
            refine ihpres v.1 ?_
            rw [hupd]
            have := indexFoldStep_foldl_mem docs (batch.zip embeddings) (vectors, cache) be hbe
              (by rw [hbefst]; exact hvlt)
            rwa [hbefst] at this
          · exact ihmem v hvd (by rw [hul]; exact hvlt)

theorem scanDocs_fst_length (cache : EmbeddingCache) :
    ∀ (docs : List SearchDocument) (i0 : ℕ), (scanDocs cache docs i0).1.length = docs.length := by
  intro docs
  induction docs with
  | nil => intro i0; rfl
  | cons d rest ih =>
    intro i0
    rw [scanDocs]
    cases hc : cacheLookup cache d.path with
    | none => simp [ih]
    | some entry =>
      by_cases he : entry.hash = hashContent (docEmbedText d) <;> simp [he, ih]

/-- Every document position is either filled by a cache hit during the scan
or queued (with its running index) for embedding. -/
theorem scanDocs_cover (cache : EmbeddingCache) :
    ∀ (docs : List SearchDocument) (i0 j : ℕ), j < docs.length →
      ((scanDocs cache docs i0).1.getD j none).isSome ∨
      ∃ t h, (i0 + j, t, h) ∈ (scanDocs cache docs i0).2 := by
  intro docs
  induction docs with
  | nil => intro i0 j hj; simp at hj
  | cons d rest ih =>
    intro i0 j hj
    rw [scanDocs]
    cases hc : cacheLookup cache d.path with
    | none =>
      cases j with
      | zero =>
        right
        exact ⟨docEmbedText d, hashContent (docEmbedText d), by simp⟩
      | succ j =>
        rcases ih (i0 + 1) j (by simpa using hj) with hsome | ⟨t, hsh, hmem⟩
        · left
          simpa [List.getD_cons_succ] using hsome
        · right
          refine ⟨t, hsh, ?_⟩
          have hidx : i0 + (j + 1) = i0 + 1 + j := by omega
          rw [hidx]
          simp [hmem]
    | some entry =>
      by_cases he : entry.hash = hashContent (docEmbedText d)
      · cases j with
        | zero => left; simp [he]
        | succ j =>
          rcases ih (i0 + 1) j (by simpa using hj) with hsome | ⟨t, hsh, hmem⟩
          · left
            simpa [he, List.getD_cons_succ] using hsome
          · right
            refine ⟨t, hsh, ?_⟩
            have hidx : i0 + (j + 1) = i0 + 1 + j := by omega
            rw [hidx]
            simp [he, hmem]
      · cases j with
        | zero =>
          right
          exact ⟨docEmbedText d, hashContent (docEmbedText d), by simp [he]⟩
        | succ j =>
          rcases ih (i0 + 1) j (by simpa using hj) with hsome | ⟨t, hsh, hmem⟩
          · left
            simpa [he, List.getD_cons_succ] using hsome
          · right
            refine ⟨t, hsh, ?_⟩
            have hidx : i0 + (j + 1) = i0 + 1 + j := by omega
            rw [hidx]
            simp [he, hmem]

/-- Indices queued by the scan stay below `i0 + docs.length`. -/
theorem scanDocs_idx_lt (cache : EmbeddingCache) :
    ∀ (docs : List SearchDocument) (i0 : ℕ) (u : ℕ × Str × ℤ),
      u ∈ (scanDocs cache docs i0).2 → u.1 < i0 + docs.length := by
  intro docs
  induction docs with
  | nil => intro i0 u hu; simp [scanDocs] at hu
  | cons d rest ih =>
    intro i0 u hu
    rw [scanDocs] at hu
    cases hc : cacheLookup cache d.path with
    | none =>
      rw [hc] at hu
      simp only [List.mem_cons] at hu
      rcases hu with rfl | hu
      · simp only [List.length_cons]
        omega
      · have := ih (i0 + 1) u hu
        simp only [List.length_cons]
        omega
    | some entry =>
      rw [hc] at hu
      simp only at hu
      by_cases he : entry.hash = hashContent (docEmbedText d)
      · rw [if_pos he] at hu
        have := ih (i0 + 1) u hu
        simp only [List.length_cons]
        omega
      · rw [if_neg he] at hu
        simp only [List.mem_cons] at hu
        rcases hu with rfl | hu
        · simp only [List.length_cons]
          omega
        · have := ih (i0 + 1) u hu
          simp only [List.length_cons]
          omega

/-- Shared completeness fact: a successful `SearchIndex.index` produces a
full parallel vector array. -/
theorem index_ok_complete (p : Provider) (requested : Option ℤ)
    (docs : List SearchDocument) (cache : EmbeddingCache) (vectors : List (Option Vec))
    (cache' : EmbeddingCache)
    (h : SearchIndex.index p requested docs cache = .ok (vectors, cache')) :
    vectors.length = docs.length ∧ ∀ i < docs.length, (vectors.getD i none).isSome := by
  unfold SearchIndex.index indexBatches at h
  simp only at h
  obtain ⟨hlen, hpres, hmem⟩ := indexBatchesGo_ok p requested docs _ _ _ _ _ _ h
  have hscan := scanDocs_fst_length cache docs 0
  constructor
  · rw [hlen, hscan]
  · intro i hi
    rcases scanDocs_cover cache docs 0 i hi with hsome | ⟨t, hsh, hqueued⟩
    · exact hpres i hsome
    · have := hmem (0 + i, t, hsh) (by simpa using hqueued)
      simp only [hscan] at this
      simpa using this (by simpa using hi)

/-- C9: after a successful `SearchIndex.index` run, `vectors[i]` is defined
for every `i` (no partial vectors) and `vectors.length` equals
`documents.length`, whether each vector came from a cache hit or a fresh
embedding call. -/
theorem index_vectors_complete (p : Provider) (requested : Option ℤ)
    (docs : List SearchDocument) (cache : EmbeddingCache) (vectors : List (Option Vec))
    (cache' : EmbeddingCache)
    (h : SearchIndex.index p requested docs cache = .ok (vectors, cache')) :
    vectors.length = docs.length ∧ ∀ i < docs.length, (vectors.getD i none).isSome :=
  index_ok_complete p requested docs cache vectors cache' h

set_option maxRecDepth 4000 in
/-- Witness for C9: indexing one concrete document with a healthy provider
yields a fully defined singleton vector array. -/
theorem index_vectors_complete_witness :
    ([some [(15 : ℚ)]] : List (Option Vec)).length = [wdoc].length ∧
    ∀ i < [wdoc].length, (([some [(15 : ℚ)]] : List (Option Vec)).getD i none).isSome :=
  index_vectors_complete okProvider none [wdoc] []
    [some [(15 : ℚ)]]
    [(wdoc.path, ⟨hashContent (docEmbedText wdoc), [(15 : ℚ)]⟩)]
    (by decide)

/-- C3 (amended): `SearchIndex.index` never skips a document — it either
fails as a whole (any terminal embedding failure propagates and aborts the
entire build) or succeeds with a vector for every document. -/
theorem index_all_or_nothing (p : Provider) (requested : Option ℤ)
    (docs : List SearchDocument) (cache : EmbeddingCache) :
    (∃ e, SearchIndex.index p requested docs cache = .error e) ∨
    (∃ vectors cache', SearchIndex.index p requested docs cache = .ok (vectors, cache') ∧
      vectors.length = docs.length ∧ ∀ i < docs.length, (vectors.getD i none).isSome) := by
  cases hx : SearchIndex.index p requested docs cache with
  | error e => exact .inl ⟨e, rfl⟩
  | ok vc =>
    obtain ⟨vectors, cache'⟩ := vc
    obtain ⟨h1, h2⟩ := index_ok_complete p requested docs cache vectors cache' hx
    exact .inr ⟨vectors, cache', rfl, h1, h2⟩

/-- Witness for the amended C3 (the all-or-nothing disjunction at a concrete
aborting run). -/
theorem index_all_or_nothing_witness :
    (∃ e, SearchIndex.index alwaysCtxProvider none [goodDoc, badDoc] goodDocCache = .error e) ∨
    (∃ vectors cache',
      SearchIndex.index alwaysCtxProvider none [goodDoc, badDoc] goodDocCache =
        .ok (vectors, cache') ∧
      vectors.length = [goodDoc, badDoc].length ∧
      ∀ i < [goodDoc, badDoc].length, (vectors.getD i none).isSome) :=
  index_all_or_nothing alwaysCtxProvider none [goodDoc, badDoc] goodDocCache

set_option maxRecDepth 4000 in
/-- Counterexample to C3 as stated: with `goodDoc` already cached (a valid
hash-matching entry) and `badDoc` failing terminally with a context-length
error, the whole `SearchIndex.index` call throws — the build aborts instead
of completing for the other document with the failing one skipped. -/
theorem index_aborts_on_single_failure :
    SearchIndex.index alwaysCtxProvider none [goodDoc, badDoc] goodDocCache =
      .error .ctx := by
  decide

/-! ## Claim C5: two-stage call-site ranking -/

theorem length_insertionSort {α : Type} (r : α → α → Prop) [DecidableRel r] (l : List α) :
    (l.insertionSort r).length = l.length :=
  (List.perm_insertionSort r l).length_eq

theorem except_bind_ok {ε α β : Type} (x : Except ε α) (f : α → Except ε β) (v : β)
    (h : x.bind f = .ok v) : ∃ a, x = .ok a ∧ f a = .ok v := by
  cases x with
  | error e => simp [Except.bind] at h
  | ok a => exact ⟨a, rfl, by simpa [Except.bind] using h⟩

/-- C5: for every candidate set, a successful `rankCallSites` reports the
pre-truncation candidate count as `total`; returns exactly
`min(limit, number-of-embedded-candidates)` sites, where the embedded
candidates are the top `max(30, limit * 4)` by keyword score; the sites are
sorted by descending combined score; and every returned site stems from one
of those embedded candidates. -/
theorem rankCallSites_two_stage (p : Provider) (requested : Option ℤ) (sqrtF : ℚ → ℚ)
    (cache : EmbeddingCache) (queryVec : Vec) (limit : ℕ)
    (candidates : List CallCandidate) (sites : List CallSite) (total : ℕ)
    (hlim : 1 ≤ limit)
    (hok : rankCallSites p requested sqrtF cache queryVec limit candidates =
      .ok (sites, total)) :
    total = candidates.length ∧
    sites.length = min limit (min (max 30 (limit * 4)) candidates.length) ∧
    List.Pairwise siteScoreOrder sites ∧
    ∀ s ∈ sites, ∃ c ∈ (candidates.insertionSort candKwOrder).take
        (min (max 30 (limit * 4)) candidates.length),
      s.file = c.file ∧ s.line = c.line ∧ s.context = c.context ∧
      s.keywordScore = c.keywordScore := by
  unfold rankCallSites at hok
  by_cases hn : candidates.length = 0
  · rw [if_pos hn] at hok
    injection hok with hok
    injection hok with h1 h2
    subst h1
    subst h2
    refine ⟨hn.symm, by simp [hn], List.Pairwise.nil, fun s hs => absurd hs (List.not_mem_nil s)⟩
  · rw [if_neg hn] at hok
    simp only at hok
    obtain ⟨cacheAfter, hcc, hok2⟩ := except_bind_ok _ _ _ hok
    injection hok2 with hok2
    injection hok2 with h1 h2
    subst h2
    refine ⟨rfl, ?_, ?_, ?_⟩
    · rw [← h1]
      simp only [List.length_take, length_insertionSort, List.length_map]
      omega
    · rw [← h1]
      exact List.Pairwise.sublist (List.take_sublist _ _)
        (List.sorted_insertionSort siteScoreOrder _)
    · intro s hs
      rw [← h1] at hs
      have hs2 := (List.perm_insertionSort siteScoreOrder _).mem_iff.mp
        (List.mem_of_mem_take hs)
      obtain ⟨ck, hck, hcks⟩ := List.mem_map.mp hs2
      obtain ⟨c, hc, hcck⟩ := List.mem_map.mp hck
      exact ⟨c, hc, by rw [← hcks, ← hcck], by rw [← hcks, ← hcck],
        by rw [← hcks, ← hcck], by rw [← hcks, ← hcck]⟩

/-! ## Claim C6: the eigengap heuristic -/

/-- Invariant of the `bestGap`/`bestK` scan: the final best pair either is
the initial one or names a scanned position; its gap value only grows; it
dominates every scanned gap; and it is either the untouched initial pair or
records exactly the gap at its position. -/
theorem eigengapFold_spec (gap : ℕ → ℚ) :
    ∀ (ks : List ℕ) (best : ℚ × ℕ),
      (eigengapFold gap ks best = best ∨ (eigengapFold gap ks best).2 ∈ ks) ∧
      best.1 ≤ (eigengapFold gap ks best).1 ∧
      (∀ k ∈ ks, gap k ≤ (eigengapFold gap ks best).1) ∧
      ((eigengapFold gap ks best).1 = best.1 ∧ (eigengapFold gap ks best).2 = best.2 ∨
        (eigengapFold gap ks best).1 = gap (eigengapFold gap ks best).2) := by
  intro ks
  induction ks with
  | nil =>
    intro best
    exact ⟨.inl rfl, le_rfl, by simp, .inl ⟨rfl, rfl⟩⟩
  | cons k ks ih =>
    intro best
    have hstep : eigengapFold gap (k :: ks) best =
        eigengapFold gap ks (if best.1 < gap k then (gap k, k) else best) := rfl
    rw [hstep]
    by_cases h : best.1 < gap k
    · rw [if_pos h]
      obtain ⟨hin, hle, hall, hform⟩ := ih (gap k, k)
      refine ⟨?_, le_trans (le_of_lt h) hle, ?_, ?_⟩
      · rcases hin with heq | hmem
        · right
          rw [heq]
          exact List.mem_cons_self k ks
        · right
          exact List.mem_cons_of_mem k hmem
      · intro j hj
        rcases List.mem_cons.mp hj with rfl | hj
        · exact hle
        · exact hall j hj
      · rcases hform with ⟨hf1, hf2⟩ | hf
        · right
          rw [hf1, hf2]
        · right
          exact hf
    · rw [if_neg h]
      obtain ⟨hin, hle, hall, hform⟩ := ih best
      refine ⟨?_, hle, ?_, hform⟩
      · rcases hin with heq | hmem
        · left
          exact heq
        · right
          exact List.mem_cons_of_mem k hmem
      · intro j hj
        rcases List.mem_cons.mp hj with rfl | hj
        · exact le_trans (le_of_not_lt h) hle
        · exact hall j hj

/-- Gaps of the ascending-sorted eigenvalue list are non-negative. -/
theorem eigengapAt_nonneg (eigenvalues : List ℚ) (j : ℕ) (h1 : 1 ≤ j)
    (hj : j < (eigenvalues.insertionSort (· ≤ ·)).length) :
    0 ≤ eigengapAt (eigenvalues.insertionSort (· ≤ ·)) j := by
  have hsorted : List.Sorted (· ≤ ·) (eigenvalues.insertionSort (· ≤ ·)) :=
    List.sorted_insertionSort _ _
  have hj1 : j - 1 < (eigenvalues.insertionSort (· ≤ ·)).length := by omega
  have := hsorted.rel_get_of_lt (a := ⟨j - 1, hj1⟩) (b := ⟨j, hj⟩)
    (Fin.mk_lt_mk.mpr (by omega))
  unfold eigengapAt
  rw [List.getD_eq_getElem _ _ hj, List.getD_eq_getElem _ _ hj1]
  simp only [List.get_eq_getElem] at this
  linarith

/-- C6: the cluster count used by `spectralCluster`,
`findOptimalK eigenvalues (min maxClusters (max 2 ⌊√n⌋))`, is 2 for two
points; defaults to 2 when the scan range `[2, min(maxK, n - 1)]` is empty
(no gap computed); and otherwise is a position of that range carrying the
largest consecutive gap of the ascending-sorted eigenvalues. -/
theorem spectralCluster_eigengap_choice (eigenvalues : List ℚ) (maxClusters n : ℕ)
    (hn : eigenvalues.length = n) :
    (n = 2 → findOptimalK eigenvalues (min maxClusters (max 2 (floorSqrt n))) = 2) ∧
    (3 ≤ n → min (min maxClusters (max 2 (floorSqrt n))) (n - 1) < 2 →
      findOptimalK eigenvalues (min maxClusters (max 2 (floorSqrt n))) = 2) ∧
    (3 ≤ n → 2 ≤ min (min maxClusters (max 2 (floorSqrt n))) (n - 1) →
      2 ≤ findOptimalK eigenvalues (min maxClusters (max 2 (floorSqrt n))) ∧
      findOptimalK eigenvalues (min maxClusters (max 2 (floorSqrt n))) ≤
        min (min maxClusters (max 2 (floorSqrt n))) (n - 1) ∧
      ∀ j, 2 ≤ j → j ≤ min (min maxClusters (max 2 (floorSqrt n))) (n - 1) →
        eigengapAt (eigenvalues.insertionSort (· ≤ ·)) j ≤
          eigengapAt (eigenvalues.insertionSort (· ≤ ·))
            (findOptimalK eigenvalues (min maxClusters (max 2 (floorSqrt n))))) := by
  have hslen : (eigenvalues.insertionSort (· ≤ ·)).length = n := by
    rw [length_insertionSort, hn]
  refine ⟨?_, ?_, ?_⟩
  · intro hn2
    simp only [findOptimalK]
    rw [if_pos (by rw [hslen, hn2])]
    rw [hslen, hn2]
    exact min_self 2
  · intro h3 hlim
    simp only [findOptimalK]
    rw [if_neg (by rw [hslen]; omega)]
    rw [hslen]
    have hz : min (min maxClusters (max 2 (floorSqrt n))) (n - 1) - 1 = 0 := by omega
    rw [hz]
    rfl
  · intro h3 hlim
    simp only [findOptimalK]
    rw [if_neg (by rw [hslen]; omega)]
    rw [hslen]
    obtain ⟨hin, -, hall, hform⟩ := eigengapFold_spec
      (eigengapAt (eigenvalues.insertionSort (· ≤ ·)))
      (List.range' 2 (min (min maxClusters (max 2 (floorSqrt n))) (n - 1) - 1)) (0, 2)
    have hrange : ∀ j : ℕ, 2 ≤ j → j ≤ min (min maxClusters (max 2 (floorSqrt n))) (n - 1) →
        j ∈ List.range' 2 (min (min maxClusters (max 2 (floorSqrt n))) (n - 1) - 1) := by
      intro j hj1 hj2
      rw [List.mem_range'_1]
      omega
    have hkbounds : 2 ≤ (eigengapFold (eigengapAt (eigenvalues.insertionSort (· ≤ ·)))
        (List.range' 2 (min (min maxClusters (max 2 (floorSqrt n))) (n - 1) - 1)) (0, 2)).2 ∧
        (eigengapFold (eigengapAt (eigenvalues.insertionSort (· ≤ ·)))
        (List.range' 2 (min (min maxClusters (max 2 (floorSqrt n))) (n - 1) - 1)) (0, 2)).2 ≤
          min (min maxClusters (max 2 (floorSqrt n))) (n - 1) := by
      rcases hin with heq | hmem
      · rw [heq]
        exact ⟨le_rfl, hlim⟩
      · rw [List.mem_range'_1] at hmem
        omega
    refine ⟨hkbounds.1, hkbounds.2, ?_⟩
    intro j hj1 hj2
    have hjle := hall j (hrange j hj1 hj2)
    rcases hform with ⟨hf1, hf2⟩ | hf
    · rw [hf2]
      refine le_trans hjle ?_
      rw [hf1]
      exact eigengapAt_nonneg eigenvalues 2 (by omega) (by omega)
    · rw [← hf]
      exact hjle

/-- Witness for C6: on a concrete nine-eigenvalue list with `maxClusters =
20` (scan range `[2, 3]`), the chosen `k` lies in the range. -/
theorem spectralCluster_eigengap_choice_witness :
    2 ≤ findOptimalK weigen (min 20 (max 2 (floorSqrt 9))) ∧
    findOptimalK weigen (min 20 (max 2 (floorSqrt 9))) ≤
      min (min 20 (max 2 (floorSqrt 9))) (9 - 1) := by
  have h := (spectralCluster_eigengap_choice weigen 20 9 (by decide)).2.2
    (by norm_num) (by decide)
  exact ⟨h.1, h.2.1⟩

set_option maxRecDepth 8000 in
/-- Witness for C5: the claim's own scenario — requesting 2 sites over 50
candidate occurrences returns exactly 2 sites and reports 50. -/
theorem rankCallSites_two_stage_witness :
    (50 : ℕ) = fiftyCandidates.length ∧
    ([CallSite.mk (("f").toList) 1 (("x").toList) (1 / 3) 0 (41 / 150),
      CallSite.mk (("f").toList) 2 (("x").toList) (1 / 3) 0 (41 / 150)].length =
      min 2 (min (max 30 (2 * 4)) fiftyCandidates.length)) := by
  have h := rankCallSites_two_stage okProvider none idRat [] [1] 2 fiftyCandidates
    [CallSite.mk (("f").toList) 1 (("x").toList) (1 / 3) 0 (41 / 150),
     CallSite.mk (("f").toList) 2 (("x").toList) (1 / 3) 0 (41 / 150)] 50
    (by norm_num) (by decide)
  exact ⟨h.1, h.2.1⟩

/-! ## Claim C2: the leaves of the hierarchy partition the file set -/

/-- Appending an index through `insertGrouped` only appends it to the
flattened group contents, up to permutation. -/
theorem insertGrouped_flatten (acc : List (ℕ × List ℕ)) (c i : ℕ) :
    (((insertGrouped acc c i).map fun g => g.2).flatten).Perm
      ((acc.map fun g => g.2).flatten ++ [i]) := by
  induction acc with
  | nil => simp [insertGrouped]
  | cons hd rest ih =>
    obtain ⟨key, xs⟩ := hd
    by_cases h : key = c
    · simp only [insertGrouped, if_pos h, List.map_cons, List.flatten_cons]
      rw [List.append_assoc, List.append_assoc]
      exact List.Perm.append_left xs List.perm_append_comm
    · simp only [insertGrouped, if_neg h, List.map_cons, List.flatten_cons]
      rw [List.append_assoc]
      exact List.Perm.append_left xs ih

/-- The grouping fold of `spectralCluster` accumulates exactly the first
components of the processed pairs, up to permutation. -/
theorem groupFold_flatten (ps : List (ℕ × ℕ)) :
    ∀ acc : List (ℕ × List ℕ),
      (((ps.foldl (fun acc p => insertGrouped acc p.2 p.1) acc).map fun g => g.2).flatten).Perm
        ((acc.map fun g => g.2).flatten ++ ps.map fun p => p.1) := by
  induction ps with
  | nil =>
    intro acc
    simp
  | cons p ps ih =>
    intro acc
    simp only [List.foldl_cons, List.map_cons]
    refine (ih (insertGrouped acc p.2 p.1)).trans ?_
    have hsplit : p.1 :: (ps.map fun p => p.1) = [p.1] ++ ps.map fun p => p.1 := rfl
    rw [hsplit, ← List.append_assoc]
    exact List.Perm.append_right _ (insertGrouped_flatten acc p.2 p.1)

/-- Grouping an assignment list by value yields the positions `0..n-1`
exactly once each. -/
theorem groupAssignments_flatten (assignments : List ℕ) :
    ((groupAssignments assignments).flatten).Perm (List.range assignments.length) := by
  unfold groupAssignments
  have h := groupFold_flatten assignments.enum []
  simp only [List.map_nil, List.flatten_nil, List.nil_append] at h
  have hfst : (assignments.enum.map fun p => p.1) = List.range assignments.length :=
    List.enum_map_fst assignments
  rw [hfst] at h
  exact h

/-- The `kMeans` loop never changes the number of assignments. -/
theorem kMeansLoop_length (data : List (List ℚ)) (k dim n : ℕ) :
    ∀ (fuel : ℕ) (centroids : List (List ℚ)) (assignments : List ℕ),
      assignments.length = n →
      (kMeansLoop data k dim n fuel centroids assignments).length = n := by
  intro fuel
  induction fuel with
  | zero =>
    intro c a h
    exact h
  | succ fuel ih =>
    intro c a h
    simp only [kMeansLoop]
    by_cases hx : (List.range n).map (fun i => argminCentroid (data.getD i []) dim c) = a
    · rw [if_pos hx]
      simp
    · rw [if_neg hx]
      exact ih _ _ (by simp)

/-- `kMeans` returns one assignment per data point. -/
theorem kMeans_length (data : List (List ℚ)) (k : ℕ) :
    (kMeans data k).length = data.length := by
  unfold kMeans
  exact kMeansLoop_length data k _ _ 50 _ _ (List.length_replicate _ _)

/-- Flattening a list of singletons recovers the list. -/
theorem flatten_map_singleton {α : Type} (l : List α) :
    (l.map fun i => [i]).flatten = l := by
  induction l with
  | nil => rfl
  | cons x xs ih => simp [ih]

/-- `spectralCluster` partitions the point indices: the concatenation of the
returned index lists is a permutation of `0..n-1`, in every branch (single
point, one-per-point singletons, and the spectral `kMeans` grouping). -/
theorem spectralCluster_indices_perm (oracle : EigenOracle) (sqrtF : ℚ → ℚ)
    (vectors : List Vec) (maxClusters : ℕ) :
    ((((spectralCluster oracle sqrtF vectors maxClusters).map ClusterResult.indices).flatten)).Perm
      (List.range vectors.length) := by
  simp only [spectralCluster]
  by_cases h1 : vectors.length ≤ 1
  · rw [if_pos h1]
    simp
  · rw [if_neg h1]
    by_cases h2 : vectors.length ≤ maxClusters
    · rw [if_pos h2]
      rw [List.map_map]
      have hcomp : (ClusterResult.indices ∘ fun i => ClusterResult.mk [i]) =
          fun i : ℕ => [i] := rfl
      rw [hcomp, flatten_map_singleton]
    · rw [if_neg h2]
      rw [List.map_map]
      have hcomp : (ClusterResult.indices ∘ ClusterResult.mk) = @id (List ℕ) := rfl
      rw [hcomp, List.map_id]
      refine (groupAssignments_flatten _).trans ?_
      rw [kMeans_length, List.length_map, List.length_range]

/-- Unfolding `leafFiles` on a constructed node, with the `attach` removed. -/
theorem leafFiles_mk (l : Str) (pp : Option Str) (fs : List FileInfo)
    (cs : List ClusterNode) :
    leafFiles (.mk l pp fs cs) = fs ++ (cs.map leafFiles).flatten := by
  rw [leafFiles]
  congr 1
  rw [List.attach_map_coe]

/-- A leaf node carries exactly its own files. -/
theorem leafFiles_leafNode (files : List FileInfo) : leafFiles (leafNode files) = files := by
  unfold leafNode
  rw [leafFiles_mk]
  simp

/-- Relabelling a node does not change its leaf files. -/
theorem leafFiles_relabel (c : ClusterNode) (l : Str) :
    leafFiles (c.relabel l) = leafFiles c := by
  obtain ⟨lab, pp, fs, cs⟩ := c
  simp only [ClusterNode.relabel]
  rw [leafFiles_mk, leafFiles_mk]

/-- Pointwise related maps over one list are `Forall₂`-related. -/
theorem forall₂_map_map {α β : Type} (R : β → β → Prop) (l : List α) (f g : α → β)
    (h : ∀ a ∈ l, R (f a) (g a)) : List.Forall₂ R (l.map f) (l.map g) := by
  induction l with
  | nil => exact List.Forall₂.nil
  | cons x xs ih =>
    exact List.Forall₂.cons (h x (List.mem_cons_self x xs))
      (ih fun a ha => h a (List.mem_cons_of_mem x ha))

/-- Mapping a function of the element through `enum` ignores the indices. -/
theorem enum_map_snd_comp {α β : Type} (l : List α) (f : α → β) :
    (l.enum.map fun im => f im.2) = l.map f := by
  have h : (fun im : ℕ × α => f im.2) = f ∘ Prod.snd := rfl
  rw [h, ← List.map_map, List.enum_map_snd]

/-- If every child built from an enumerated meta list has leaf files permuting
that meta's file list, the concatenated leaf files permute the concatenated
meta file lists. -/
theorem children_flatten_perm (metas : List (List FileInfo × List Vec × Option Str))
    (g : ℕ × (List FileInfo × List Vec × Option Str) → ClusterNode)
    (hg : ∀ p ∈ metas.enum, (leafFiles (g p)).Perm p.2.1)
    (files : List FileInfo)
    (hflat : (((metas.map fun m => m.1).flatten)).Perm files) :
    ((((metas.enum.map g).map leafFiles).flatten)).Perm files := by
  rw [List.map_map]
  have h1 : List.Forall₂ List.Perm (metas.enum.map (leafFiles ∘ g))
      (metas.enum.map fun p => p.2.1) :=
    forall₂_map_map _ metas.enum (leafFiles ∘ g) (fun p => p.2.1) hg
  refine (List.Perm.flatten_congr h1).trans ?_
  rw [enum_map_snd_comp metas fun m => m.1]
  exact hflat

/-- Reading each cluster's files out of `files` by index and concatenating
recovers `files`, because the cluster indices partition `0..n-1`. -/
theorem metas_files_flatten_perm (oracle : EigenOracle) (sqrtF : ℚ → ℚ)
    (vectors : List Vec) (maxClusters : ℕ) (files : List FileInfo)
    (hlen : vectors.length = files.length) :
    ((((spectralCluster oracle sqrtF vectors maxClusters).map fun c =>
        c.indices.map fun i => files.getD i default).flatten)).Perm files := by
  have h1 : ((spectralCluster oracle sqrtF vectors maxClusters).map fun c =>
        c.indices.map fun i => files.getD i default).flatten
      = (((spectralCluster oracle sqrtF vectors maxClusters).map
          ClusterResult.indices).flatten).map fun i => files.getD i default := by
    rw [List.map_flatten, List.map_map]
    rfl
  rw [h1]
  refine ((spectralCluster_indices_perm oracle sqrtF vectors maxClusters).map _).trans ?_
  rw [hlen]
  have h2 : (List.range files.length).map (fun i => files.getD i default) = files := by
    apply List.ext_getElem
    · simp
    · intro i hi1 hi2
      simp [List.getD_eq_getElem files default hi2]
      simp [List.getElem?_eq_getElem hi2]
  rw [h2]

/-- At every fuel level, the leaf files of the hierarchy permute the input
files, provided one vector accompanies each file. -/
theorem buildHierarchyAux_leafFiles_perm (oracle : EigenOracle) (sqrtF : ℚ → ℚ)
    (labeler : List (List FileInfo × Option Str) → List Str) (maxClusters : ℕ) :
    ∀ (fuel : ℕ) (files : List FileInfo) (vectors : List Vec),
      vectors.length = files.length →
      (leafFiles (buildHierarchyAux oracle sqrtF labeler maxClusters fuel files vectors)).Perm
        files := by
  intro fuel
  induction fuel with
  | zero =>
    intro files vectors _
    simp only [buildHierarchyAux]
    rw [leafFiles_leafNode]
  | succ fuel ih =>
    intro files vectors hlen
    simp only [buildHierarchyAux]
    by_cases hsmall : files.length ≤ MAX_FILES_PER_LEAF
    · rw [if_pos hsmall, leafFiles_leafNode]
    · rw [if_neg hsmall]
      by_cases hone : (spectralCluster oracle sqrtF vectors maxClusters).length ≤ 1
      · rw [if_pos hone, leafFiles_leafNode]
      · rw [if_neg hone]
        rw [leafFiles_mk, List.nil_append]
        refine children_flatten_perm _ _ ?_ files ?_
        · intro p hp
          rw [leafFiles_relabel]
          obtain ⟨c, hc, hcp⟩ := List.mem_map.mp (List.snd_mem_of_mem_enum hp)
          refine ih p.2.1 p.2.2.1 ?_
          rw [← hcp]
          simp
        · rw [List.map_map]
          exact metas_files_flatten_perm oracle sqrtF vectors maxClusters files hlen

/-- C2: `spectralCluster` always returns index lists whose concatenation is a
permutation of `0..n-1` (each point in exactly one cluster), and the leaf
`files` lists of the tree returned by `buildHierarchy` concatenate to a
permutation of the input file list — every file appears in exactly one leaf,
none duplicated, none dropped — for every oracle, labeller, depth budget and
file/vector pairing of equal length. -/
theorem hierarchy_leaves_partition (oracle : EigenOracle) (sqrtF : ℚ → ℚ)
    (labeler : List (List FileInfo × Option Str) → List Str) (maxClusters : ℕ)
    (files : List FileInfo) (vectors : List Vec) (depth maxDepth : ℕ)
    (hlen : vectors.length = files.length) :
    ((((spectralCluster oracle sqrtF vectors maxClusters).map
        ClusterResult.indices).flatten)).Perm (List.range vectors.length) ∧
    (leafFiles (buildHierarchy oracle sqrtF labeler files vectors maxClusters
        depth maxDepth)).Perm files :=
  ⟨spectralCluster_indices_perm oracle sqrtF vectors maxClusters,
   buildHierarchyAux_leafFiles_perm oracle sqrtF labeler maxClusters (maxDepth - depth)
     files vectors hlen⟩

/-- Witness for C2: three files with three vectors through the full
`buildHierarchy` entry point. -/
theorem hierarchy_leaves_partition_witness :
    wvecs.length = wfiles.length ∧
    (leafFiles (buildHierarchy trivialOracle idRat trivialLabeler wfiles wvecs 20 0 4)).Perm
      wfiles :=
  ⟨by decide,
   (hierarchy_leaves_partition trivialOracle idRat trivialLabeler 20 wfiles wvecs 0 4
     (by decide)).2⟩

end ContextPlus
